import Mathlib

/-!
# Verification of the htsim-rs network simulator core

A shallow embedding, in Lean 4, of the parts of the `htsim-rs`
discrete-event network simulator that the specification claims talk
about: fixed-width saturating/wrapping arithmetic, packets and their
routing state (`src/net/packet.rs`), the priority egress queue
(`src/queue/priority.rs`), the collective-operation helpers
(`src/cc/collective.rs`), the simulator kernel's event ordering
(`src/sim/simulator.rs`, `src/sim/scheduled_event.rs`), the
shortest-path routing table (`src/net/routing.rs`), and the TCP / DCTCP
connection state machines (`src/proto/tcp.rs`, `src/proto/dctcp.rs`).

Machine integers are embedded as `Nat` with explicit saturating or
wrapping operations where the Rust code uses them (`u64`, `u32`, `i32`,
`usize`; `usize` is taken to be 64 bits wide).
-/

namespace Htsim

/-! ## Fixed-width arithmetic helpers -/

/-- Largest value of a `u64`. -/
def u64Max : Nat := 18446744073709551615

/-- Largest value of a `u32`. -/
def u32Max : Nat := 4294967295

/-- Largest value of a `usize` (64-bit platform). -/
def usizeMax : Nat := 18446744073709551615

/-- Largest value of an `i32` (used as the "unvisited" sentinel by BFS). -/
def i32MaxN : Nat := 2147483647

/-- `u64::saturating_add`. -/
def satAdd64 (a b : Nat) : Nat := min (a + b) u64Max

/-- `u64::saturating_mul`. -/
def satMul64 (a b : Nat) : Nat := min (a * b) u64Max

/-- `u32::saturating_add`. -/
def satAdd32 (a b : Nat) : Nat := min (a + b) u32Max

/-- `usize::saturating_add`. -/
def satAddUsize (a b : Nat) : Nat := min (a + b) usizeMax

/-- `usize::saturating_sub` / `u64::saturating_sub` is `Nat` subtraction. -/
def satSub (a b : Nat) : Nat := a - b

/-- `usize::saturating_mul`. -/
def satMulUsize (a b : Nat) : Nat := min (a * b) usizeMax

/-- `u64::wrapping_add`. -/
def wrapAdd64 (a b : Nat) : Nat := (a + b) % 18446744073709551616

/-- Saturating add of nonnegative `i32` values, capped at `i32::MAX`
(`i32::saturating_add` restricted to the nonnegative range BFS uses). -/
def satAddI32 (a b : Nat) : Nat := min (a + b) i32MaxN

/-! ## Packets (`src/net/packet.rs`, `src/net/transport.rs`) -/

/-- `TcpSegment` from `src/net/transport.rs`. -/
inductive TcpSegment where
  | Syn : TcpSegment
  | SynAck : TcpSegment
  | HandshakeAck : TcpSegment
  | Data (seq : Nat) (len : Nat) : TcpSegment
  | Ack (ack : Nat) : TcpSegment
deriving DecidableEq, Repr

/-- `DctcpSegment` from `src/net/transport.rs`. -/
inductive DctcpSegment where
  | Data (seq : Nat) (len : Nat) : DctcpSegment
  | Ack (ack : Nat) (ecnEcho : Bool) : DctcpSegment
deriving DecidableEq, Repr

/-- `Transport` from `src/net/transport.rs`. -/
inductive Transport where
  | None : Transport
  | Tcp (seg : TcpSegment) : Transport
  | Dctcp (seg : DctcpSegment) : Transport
deriving DecidableEq, Repr

/-- `Ecn` code-point from `src/net/packet.rs`. -/
inductive Ecn where
  | NotEct : Ecn
  | Ect0 : Ecn
  | Ce : Ecn
deriving DecidableEq, Repr

/-- `Ecn::is_ect`. -/
def Ecn.isEct : Ecn → Bool
  | Ecn.Ect0 => true
  | _ => false

/-- `Ecn::is_ce`. -/
def Ecn.isCe : Ecn → Bool
  | Ecn.Ce => true
  | _ => false

/-- `Routing` from `src/net/packet.rs`: preset full path, fully dynamic, or
a preset leading portion followed by dynamic routing (`Mixed`). -/
inductive Routing where
  | Preset (path : List Nat) (idx : Nat) : Routing
  | Dynamic : Routing
  | Mixed (prefixPath : List Nat) (idx : Nat) : Routing
deriving DecidableEq, Repr

/-- `Packet` from `src/net/packet.rs` (node ids as `Nat`). -/
structure Packet where
  id : Nat
  flowId : Nat
  sizeBytes : Nat
  src : Nat
  dst : Nat
  ecn : Ecn
  routing : Routing
  transport : Transport
  hopsTaken : Nat
deriving DecidableEq, Repr

/-- `Packet::new_preset` (for a nonempty `path`; the Rust code panics on an
empty path, so the head/last are taken with a default that is never used
when `path ≠ []`). -/
def Packet.newPreset (id flowId sizeBytes : Nat) (path : List Nat) : Packet :=
  { id := id
    flowId := flowId
    sizeBytes := sizeBytes
    src := path.headD 0
    dst := path.getLastD 0
    ecn := Ecn.NotEct
    routing := Routing.Preset path 0
    transport := Transport.None
    hopsTaken := 0 }

/-- `Packet::new_dynamic`. -/
def Packet.newDynamic (id flowId sizeBytes src dst : Nat) : Packet :=
  { id := id
    flowId := flowId
    sizeBytes := sizeBytes
    src := src
    dst := dst
    ecn := Ecn.NotEct
    routing := Routing.Dynamic
    transport := Transport.None
    hopsTaken := 0 }

/-- `Packet::new_mixed`. -/
def Packet.newMixed (id flowId sizeBytes : Nat) (pre : List Nat) (dst : Nat) : Packet :=
  { id := id
    flowId := flowId
    sizeBytes := sizeBytes
    src := pre.headD 0
    dst := dst
    ecn := Ecn.NotEct
    routing := Routing.Mixed pre 0
    transport := Transport.None
    hopsTaken := 0 }

/-- `Packet::mark_ce_if_ect`. -/
def Packet.markCeIfEct (p : Packet) : Packet :=
  if p.ecn.isEct then { p with ecn := Ecn.Ce } else p

/-- `Packet::preset_next`: the next preset hop, if any. -/
def Packet.presetNext (p : Packet) : Option Nat :=
  match p.routing with
  | Routing.Preset path idx => path.get? (satAddUsize idx 1)
  | Routing.Mixed pre idx => pre.get? (satAddUsize idx 1)
  | Routing.Dynamic => none

/-- `Packet::advance`. -/
def Packet.advance (p : Packet) : Packet :=
  let p := { p with hopsTaken := satAdd32 p.hopsTaken 1 }
  match p.routing with
  | Routing.Preset path idx => { p with routing := Routing.Preset path (satAddUsize idx 1) }
  | Routing.Mixed pre idx =>
      if satAddUsize idx 1 < pre.length then
        { p with routing := Routing.Mixed pre (satAddUsize idx 1) }
      else
        { p with routing := Routing.Mixed pre pre.length }
  | Routing.Dynamic => p

/-- Iterated `advance`. -/
def Packet.advanceN (p : Packet) : Nat → Packet
  | 0 => p
  | k + 1 => (p.advanceN k).advance

/-- Modelled from the spec: the ECN-marking step of `Network::forward_from`.
The copy of `src/net/network.rs` in this snapshot predates the ECN support
that the rest of the tree references (`src/net/mod.rs` re-exports
`EcmpHashMode` from it, and binaries/tests call
`set_link_ecn_threshold_bytes`, neither of which it defines), so the
marking step itself is missing from the sources; only `Link`'s
`ecn_threshold_bytes` field and `Packet::mark_ce_if_ect` are present.
Per the spec: locate the egress link; "If ECN is configured on this link
and `queue_bytes + pkt.size > threshold`, mark the packet CE iff it
carries ECT". `markCeIfEct` is the source function from
`src/net/packet.rs`. -/
def forwardEcnMark (thr : Option Nat) (queueBytes : Nat) (pkt : Packet) : Packet :=
  match thr with
  | some t => if queueBytes + pkt.sizeBytes > t then pkt.markCeIfEct else pkt
  | none => pkt

/-! ## Priority egress queue (`src/queue/priority.rs`) -/

/-- `PriorityQueue::is_high_priority`: TCP `Ack`/`Syn`/`SynAck`/`HandshakeAck`
and DCTCP `Ack` are high priority. -/
def isHighPriority (p : Packet) : Bool :=
  match p.transport with
  | Transport.Tcp (TcpSegment.Ack _) => true
  | Transport.Tcp TcpSegment.Syn => true
  | Transport.Tcp TcpSegment.SynAck => true
  | Transport.Tcp TcpSegment.HandshakeAck => true
  | Transport.Dctcp (DctcpSegment.Ack _ _) => true
  | _ => false

/-- `PriorityQueue` state: capacity, current bytes, and the two FIFO
sub-queues (front of the list = front of the `VecDeque`). -/
structure PriorityQueue where
  maxBytes : Nat
  curBytes : Nat
  hi : List Packet
  lo : List Packet
deriving DecidableEq, Repr

/-- `PriorityQueue::new`. -/
def PriorityQueue.new (maxBytes : Nat) : PriorityQueue :=
  { maxBytes := maxBytes, curBytes := 0, hi := [], lo := [] }

/-- `PriorityQueue::enqueue`: reject when the byte budget would be
exceeded, else append to the class sub-queue. Returns the new state and
whether the packet was accepted (`Ok` vs `Err`). -/
def PriorityQueue.enqueue (q : PriorityQueue) (p : Packet) : PriorityQueue × Bool :=
  let sz := p.sizeBytes
  if satAdd64 q.curBytes sz > q.maxBytes then
    (q, false)
  else
    let q := { q with curBytes := satAdd64 q.curBytes sz }
    if isHighPriority p then
      ({ q with hi := q.hi ++ [p] }, true)
    else
      ({ q with lo := q.lo ++ [p] }, true)

/-- `PriorityQueue::dequeue`: pop the high queue first, else the low queue. -/
def PriorityQueue.dequeue (q : PriorityQueue) : Option Packet × PriorityQueue :=
  match q.hi with
  | p :: t => (some p, { q with hi := t, curBytes := q.curBytes - p.sizeBytes })
  | [] =>
    match q.lo with
    | p :: t => (some p, { q with lo := t, curBytes := q.curBytes - p.sizeBytes })
    | [] => (none, q)

/-- One interaction with the priority queue. -/
inductive PQOp where
  | enq (p : Packet) : PQOp
  | deq : PQOp
deriving DecidableEq, Repr

/-- Run a list of operations against a `PriorityQueue`, collecting the
packets accepted by `enqueue` and the packets returned by `dequeue`,
in order. -/
def PriorityQueue.run (q : PriorityQueue) :
    List PQOp → PriorityQueue × List Packet × List Packet
  | [] => (q, [], [])
  | PQOp.enq p :: ops =>
    let (q', ok) := q.enqueue p
    let (qf, acc, deqd) := PriorityQueue.run q' ops
    (qf, (if ok then [p] else []) ++ acc, deqd)
  | PQOp.deq :: ops =>
    let (po, q') := q.dequeue
    let (qf, acc, deqd) := PriorityQueue.run q' ops
    (qf, acc, (match po with | some p => [p] | none => []) ++ deqd)

/-! ## Collective-operation helpers (`src/cc/collective.rs`) -/

/-- `CollectiveOp`. -/
inductive CollectiveOp where
  | Allreduce : CollectiveOp
  | Allgather : CollectiveOp
  | Reducescatter : CollectiveOp
  | Alltoall : CollectiveOp
deriving DecidableEq, Repr

/-- `CollectiveOp::total_steps` (`usize` saturating arithmetic). -/
def CollectiveOp.totalSteps (op : CollectiveOp) (ranks : Nat) : Nat :=
  let steps := satSub ranks 1
  match op with
  | CollectiveOp.Allreduce => satMulUsize steps 2
  | _ => steps

/-- `div_ceil` from `src/cc/collective.rs`: `u64` saturating arithmetic. -/
def divCeilSrc (n d : Nat) : Nat :=
  if d ≤ 1 then n
  else satAdd64 n (satSub d 1) / d

/-- `CollectiveOp::chunk_bytes` (`ranks.max(1)` cast to `u64`). -/
def CollectiveOp.chunkBytes (op : CollectiveOp) (commBytes ranks : Nat) : Nat :=
  match op with
  | CollectiveOp.Allreduce => divCeilSrc commBytes (max ranks 1)
  | CollectiveOp.Reducescatter => divCeilSrc commBytes (max ranks 1)
  | CollectiveOp.Allgather => commBytes
  | CollectiveOp.Alltoall => divCeilSrc commBytes (max ranks 1)

/-! ## Simulator kernel (`src/sim/simulator.rs`, `src/sim/scheduled_event.rs`)

A scheduled event is identified by its key `(at, seq)`.  `impl Ord for
ScheduledEvent` compares `(at, seq)` lexicographically and reverses, so
Rust's max-`BinaryHeap` pops the lexicographically *smallest* key.  The
heap is modelled as a multiset of keys (a list whose order is irrelevant
to `pop`), and an event's behaviour is abstracted by the schedule calls
it performs, interleaved into the operation trace after its dispatch. -/

/-- Lexicographic encoding of `(at, seq)` with `seq < 2^64`: comparing the
encodings is the `impl Ord for ScheduledEvent` order (before reversal). -/
def keyOf (e : Nat × Nat) : Nat := e.1 * 18446744073709551616 + e.2

/-- The minimum-key element of `x :: xs` (the element a `BinaryHeap` pop
returns, since all keys in a run are distinct). Keeps the earlier element
on ties. -/
def heapMinGo (x : Nat × Nat) : List (Nat × Nat) → Nat × Nat
  | [] => x
  | y :: ys => heapMinGo (if keyOf y < keyOf x then y else x) ys

/-- `BinaryHeap::pop` on the multiset of keys: remove a minimal element. -/
def popMin (q : List (Nat × Nat)) : Option ((Nat × Nat) × List (Nat × Nat)) :=
  match q with
  | [] => none
  | x :: xs =>
    let m := heapMinGo x xs
    some (m, (x :: xs).erase m)

/-- `Simulator` state: virtual time, monotone sequence counter, event queue. -/
structure Simulator where
  now : Nat
  nextSeq : Nat
  q : List (Nat × Nat)
deriving DecidableEq, Repr

/-- `Simulator::default()`. -/
def Simulator.init : Simulator := { now := 0, nextSeq := 0, q := [] }

/-- `Simulator::schedule(at, ev)`: tag with the next sequence number
(`wrapping_add(1)`) and push. -/
def Simulator.schedule (st : Simulator) (atT : Nat) : Simulator :=
  { st with nextSeq := wrapAdd64 st.nextSeq 1, q := st.q ++ [(atT, st.nextSeq)] }

/-- One iteration of `Simulator::run`: pop the minimal `(at, seq)` and set
`now = item.at` (unconditionally, as the source does). Returns the
dispatched key, if any. -/
def Simulator.dispatch (st : Simulator) : Simulator × Option (Nat × Nat) :=
  match popMin st.q with
  | none => (st, none)
  | some (m, rest) => ({ st with now := m.1, q := rest }, some m)

/-- A step of a simulator run: either some event (or the driver) schedules,
or the run loop dispatches the next event. -/
inductive SimOp where
  | sched (atT : Nat) : SimOp
  | dispatch : SimOp
deriving DecidableEq, Repr

/-- Execute a trace of operations, logging dispatched keys in order. -/
def Simulator.exec (st : Simulator) : List SimOp → Simulator × List (Nat × Nat)
  | [] => (st, [])
  | SimOp.sched a :: ops => Simulator.exec (st.schedule a) ops
  | SimOp.dispatch :: ops =>
    let (st', m) := st.dispatch
    let (stf, log) := Simulator.exec st' ops
    (stf, (match m with | some k => [k] | none => []) ++ log)

/-- The spec's scheduling contract: every `schedule(at, _)` in the trace has
`at ≥ now` at the moment of the call. -/
def Simulator.legalB (st : Simulator) : List SimOp → Bool
  | [] => true
  | SimOp.sched a :: ops => decide (st.now ≤ a) && Simulator.legalB (st.schedule a) ops
  | SimOp.dispatch :: ops => Simulator.legalB (st.dispatch).1 ops

/-- Number of `sched` operations in a trace. -/
def schedCount : List SimOp → Nat
  | [] => 0
  | SimOp.sched _ :: ops => 1 + schedCount ops
  | SimOp.dispatch :: ops => schedCount ops

/-! ## Routing table (`src/net/routing.rs`) -/

/-- Read of the BFS distance array (`i32::MAX` as the unvisited sentinel;
out-of-range reads never occur in the source, where the array has one slot
per node). -/
def distGetD (dist : List Nat) (v : Nat) : Nat := dist.getD v i32MaxN

/-- Body of `for &pred in &rev_adj[v.0]` in `RoutingTable::ensure_built`:
discover `pred` at distance `dv + 1` (i32 saturating add) if unvisited,
appending it to the BFS queue. -/
def bfsRelax (dv : Nat) (acc : List Nat × List Nat) (pred : Nat) : List Nat × List Nat :=
  if distGetD acc.1 pred = i32MaxN then
    (acc.1.set pred (satAddI32 dv 1), acc.2 ++ [pred])
  else acc

/-- The `while let Some(v) = q.pop_front()` loop of `ensure_built`,
with explicit fuel (the loop pops each node at most once, so any fuel
larger than the node count makes the fuel case unreachable). -/
def bfsAux (rev : List (List Nat)) : Nat → List Nat → List Nat → List Nat
  | 0, _, dist => dist
  | _ + 1, [], dist => dist
  | fuel + 1, v :: qs, dist =>
    let dv := distGetD dist v
    let (dist', q') := (rev.getD v []).foldl (bfsRelax dv) (dist, qs)
    bfsAux rev fuel q' dist'

/-- The per-destination BFS of `ensure_built`: distances (in hops, over the
reverse adjacency) from every node to `dst`. `n` is the node count. -/
def bfsDist (rev : List (List Nat)) (n dst : Nat) : List Nat :=
  bfsAux rev (n + 1) [dst] ((List.replicate n i32MaxN).set dst 0)

/-- The `(from, dst)` entry `ensure_built` stores into `next_hops`:
skip `from = dst` and unreachable `from`; otherwise keep the out-neighbors
whose BFS distance is `dist(from) − 1`, storing them only when nonempty.
(`df - 1` is `i32` subtraction in the source; it is applied only where
`df ≥ 1`, where it agrees with `Nat` subtraction.) -/
def nextHopsBuilt (adj rev : List (List Nat)) (fromN dst : Nat) : Option (List Nat) :=
  let n := adj.length
  if fromN = dst then none
  else
    let dist := bfsDist rev n dst
    let df := distGetD dist fromN
    if df = i32MaxN then none
    else
      let cands := (adj.getD fromN []).filter (fun nh => distGetD dist nh = df - 1)
      if cands = [] then none else some cands

/-- `u64` wrapping multiplication. -/
def wrapMul64 (a b : Nat) : Nat := (a * b) % 18446744073709551616

/-- splitmix64-style `mix64` from `src/net/routing.rs`. -/
def mix64 (x : Nat) : Nat :=
  let x := wrapAdd64 x 0x9E3779B97F4A7C15
  let z := wrapMul64 (x ^^^ (x >>> 30)) 0xBF58476D1CE4E5B9
  let z := wrapMul64 (z ^^^ (z >>> 27)) 0x94D049BB133111EB
  z ^^^ (z >>> 31)

/-- `RoutingTable::pick_ecmp_with_key`: deterministic pick
`cands[mix64(key ^ from*0x9E37… ^ dst ^ salt) % cands.len()]`.
(The source indexes the slice, panicking on an empty candidate list; the
default value of `getD` is never used when `cands ≠ []`.) -/
def pickEcmpWithKey (hashSalt fromN dst key : Nat) (cands : List Nat) : Nat :=
  let h := mix64 (((key ^^^ wrapMul64 fromN 0x9E3779B97F4A7C15) ^^^ dst) ^^^ hashSalt)
  cands.getD (h % cands.length) 0

/-- A forward path of length `k` from `v` to `dst` along the adjacency
lists (the mathematical notion of "k hops from `v` to `dst`"). -/
inductive FPath (adj : List (List Nat)) (dst : Nat) : Nat → Nat → Prop where
  | zero : FPath adj dst dst 0
  | succ {v u k} : u ∈ adj.getD v [] → FPath adj dst u k → FPath adj dst v (k + 1)

/-- A path of length `k` from `dst` out to `v` along the *reverse*
adjacency lists (what the BFS of `ensure_built` explores). -/
inductive RPath (rev : List (List Nat)) (dst : Nat) : Nat → Nat → Prop where
  | zero : RPath rev dst dst 0
  | succ {v p k} : RPath rev dst v k → p ∈ rev.getD v [] → RPath rev dst p (k + 1)

/-- `d` is the hop distance from `v` to `dst`: attained, and minimal. -/
def IsHopDist (adj : List (List Nat)) (dst v d : Nat) : Prop :=
  FPath adj dst v d ∧ ∀ k, FPath adj dst v k → d ≤ k

/-- `rev` is exactly the reverse adjacency of `adj` (as `Network::connect`
maintains: it pushes `to` onto `adj[from]` iff it pushes `from` onto
`rev_adj[to]`), stated over the node range. -/
def RevOk (adj rev : List (List Nat)) : Prop :=
  rev.length = adj.length ∧
    ∀ v < adj.length, ∀ u < adj.length, (u ∈ rev.getD v [] ↔ v ∈ adj.getD u [])

/-- All adjacency entries name nodes below `n`. -/
def NodesOk (adj : List (List Nat)) (n : Nat) : Prop :=
  adj.length = n ∧ ∀ l ∈ adj, ∀ v ∈ l, v < n

/-! ## TCP connection state machine (`src/proto/tcp.rs`)

The embedding models one connection together with the presence bit of its
entry in the stack's `done_callbacks` map.  Node ids and routes are not
modelled (the claims under study are about sequence/window/timer state);
packet emissions are returned as an explicit `Emit` list in program order.
The `BTreeMap<u64, SentSeg>` is modelled as a list of `(seq, SentSeg)`
pairs in ascending key order (the map's iteration order). -/

/-- `SentSeg` from `src/proto/tcp.rs`. -/
structure SentSeg where
  len : Nat
  sentAt : Nat
  retransmitted : Bool
deriving DecidableEq, Repr

/-- Sender handshake state. -/
inductive SenderState where
  | SynSent : SenderState
  | Established : SenderState
deriving DecidableEq, Repr

/-- `TcpConfig` (times in ns, sizes in bytes). -/
structure TcpConfig where
  mss : Nat
  ackBytes : Nat
  initCwndBytes : Nat
  initSsthreshBytes : Nat
  initRto : Nat
  minRto : Nat
  maxRto : Nat
  handshake : Bool
  appLimitedPps : Option Nat
deriving DecidableEq, Repr

/-- Packets a connection hands to the fabric (routing/size details elided). -/
inductive Emit where
  | syn : Emit
  | data (seq len : Nat) (retrans : Bool) : Emit
deriving DecidableEq, Repr

/-- The sender/timer state of `TcpConn` (receiver reassembly fields and
routes are not used by the claims under study and are omitted). -/
structure TcpConn where
  totalBytes : Nat
  cfg : TcpConfig
  nextSeq : Nat
  lastAcked : Nat
  cwndBytes : Nat
  ssthreshBytes : Nat
  dupAcks : Nat
  rto : Nat
  rtoDeadline : Option Nat
  rtoToken : Nat
  srtt : Option Nat
  rttvar : Nat
  inflight : List (Nat × SentSeg)
  recover : Nat
  inFastRecovery : Bool
  senderState : SenderState
  synSentAt : Option Nat
  doneAt : Option Nat
deriving DecidableEq, Repr

/-- `TcpConn::new` / `new_dynamic` (the fields both constructors share). -/
def TcpConn.new (totalBytes : Nat) (cfg : TcpConfig) : TcpConn :=
  { totalBytes := totalBytes
    cfg := cfg
    nextSeq := 0
    lastAcked := 0
    cwndBytes := max cfg.initCwndBytes cfg.mss
    ssthreshBytes := max cfg.initSsthreshBytes cfg.mss
    dupAcks := 0
    rto := cfg.initRto
    rtoDeadline := none
    rtoToken := 0
    srtt := none
    rttvar := 0
    inflight := []
    recover := 0
    inFastRecovery := false
    senderState := if cfg.handshake then SenderState.SynSent else SenderState.Established
    synSentAt := none
    doneAt := none }

/-- `BTreeMap::insert` on the sorted association list. -/
def inflightInsert (s : Nat) (seg : SentSeg) : List (Nat × SentSeg) → List (Nat × SentSeg)
  | [] => [(s, seg)]
  | (k, v) :: t =>
    if s < k then (s, seg) :: (k, v) :: t
    else if s = k then (s, seg) :: t
    else (k, v) :: inflightInsert s seg t

/-- `BTreeMap::get`. -/
def inflightGet (s : Nat) : List (Nat × SentSeg) → Option SentSeg
  | [] => none
  | (k, v) :: t => if k = s then some v else inflightGet s t

/-- `BTreeMap::remove` (drop the entry with key `s`). -/
def inflightRemove (s : Nat) : List (Nat × SentSeg) → List (Nat × SentSeg)
  | [] => []
  | (k, v) :: t => if k = s then t else (k, v) :: inflightRemove s t

/-- `get_mut` + `{ sent.sent_at = now; sent.retransmitted = true; }`. -/
def inflightMarkRetrans (s now : Nat) : List (Nat × SentSeg) → List (Nat × SentSeg)
  | [] => []
  | (k, v) :: t =>
    if k = s then (k, { v with sentAt := now, retransmitted := true }) :: t
    else (k, v) :: inflightMarkRetrans s now t

/-- `TcpConn::earliest_unacked_seq` (`inflight.keys().next()`: the least
key, i.e. the head of the ascending association list). -/
def TcpConn.earliestUnackedSeq (c : TcpConn) : Option Nat :=
  c.inflight.head?.map (·.1)

/-- `TcpConn::inflight_bytes`. -/
def TcpConn.inflightBytes (c : TcpConn) : Nat :=
  (c.inflight.map (fun e => e.2.len)).sum

/-- `TcpConn::effective_cwnd`. -/
def TcpConn.effectiveCwnd (c : TcpConn) : Nat :=
  match c.cfg.appLimitedPps with
  | none => c.cwndBytes
  | some pps =>
    match c.srtt with
    | none => c.cwndBytes
    | some srtt =>
      let rttNs := max srtt 1
      let pkts := satMul64 pps rttNs / 1000000000
      let limit := satMul64 pkts c.cfg.mss
      if limit > 0 then min c.cwndBytes limit else c.cwndBytes

/-- `TcpConn::update_rto_with_sample`: RFC-6298-style estimator with gains
1/8 (SRTT) and 1/4 (RTTVAR) in integer arithmetic, then
`rto = (srtt + 4·rttvar).max(min_rto).min(max_rto)`. -/
def TcpConn.updateRtoWithSample (c : TcpConn) (sample : Nat) : TcpConn :=
  let c :=
    match c.srtt with
    | some srtt =>
      let diff := if srtt ≤ sample then sample - srtt else srtt - sample
      let rttvar := satAdd64 (wrapMul64 c.rttvar 3 / 4) (diff / 4)
      let srtt' := satAdd64 (wrapMul64 srtt 7 / 8) (sample / 8)
      { c with srtt := some srtt', rttvar := rttvar }
    | none => { c with srtt := some sample, rttvar := sample / 2 }
  let rto := satAdd64 (c.srtt.getD 0) (satMul64 c.rttvar 4)
  { c with rto := min (max rto c.cfg.minRto) c.cfg.maxRto }

/-- `TcpConn::schedule_rto`: fresh deadline `now + rto` and a fresh
(wrapping) token; the `TcpRto { conn_id, token }` event scheduled at the
deadline is represented by the stored pair. -/
def TcpConn.scheduleRto (c : TcpConn) (now : Nat) : TcpConn :=
  { c with rtoDeadline := some (satAdd64 now c.rto), rtoToken := wrapAdd64 c.rtoToken 1 }

/-- `TcpConn::ensure_rto`. -/
def TcpConn.ensureRto (c : TcpConn) (now : Nat) : TcpConn :=
  if c.rtoDeadline.isSome then c
  else if c.synSentAt.isSome ∨ c.inflight ≠ [] then c.scheduleRto now
  else c

/-- `TcpConn::restart_rto`. -/
def TcpConn.restartRto (c : TcpConn) (now : Nat) : TcpConn :=
  if c.synSentAt.isSome ∨ c.inflight ≠ [] then c.scheduleRto now
  else { c with rtoDeadline := none }

/-- The `while avail > 0 && next_seq < total_bytes` emission loop of
`TcpStack::send_data_if_possible` (fuel-recursive; each iteration either
emits at least one byte or breaks, so fuel `total − next_seq` suffices). -/
def TcpConn.sendLoop (now : Nat) : Nat → TcpConn → Nat → TcpConn × List Emit
  | 0, c, _ => (c, [])
  | fuel + 1, c, avail =>
    if avail > 0 ∧ c.nextSeq < c.totalBytes then
      let remain := c.totalBytes - c.nextSeq
      let len := min (min c.cfg.mss remain) avail
      if len = 0 then (c, [])
      else
        let seq := c.nextSeq
        let c := { c with
          nextSeq := satAdd64 c.nextSeq len
          inflight := inflightInsert seq { len := len, sentAt := now, retransmitted := false } c.inflight }
        let (c', out) := TcpConn.sendLoop now fuel c (satSub avail len)
        (c', Emit.data seq len false :: out)
    else (c, [])

/-- `TcpStack::send_data_if_possible` for one connection. -/
def TcpConn.sendDataIfPossible (c : TcpConn) (now : Nat) : TcpConn × List Emit :=
  if c.doneAt.isSome then (c, [])
  else if c.senderState ≠ SenderState.Established then
    if c.synSentAt = none then
      let c := { c with synSentAt := some now }
      ((c.ensureRto now), [Emit.syn])
    else (c.ensureRto now, [])
  else
    let avail := satSub c.effectiveCwnd c.inflightBytes
    let fuel := c.totalBytes - c.nextSeq + 1
    let (c, out) := TcpConn.sendLoop now fuel c avail
    (c.ensureRto now, out)

/-- The RTT-sampling loop at the head of the `TcpSegment::Ack` arm of
`TcpStack::on_tcp_segment`: walk `inflight` in ascending key order; for
each segment wholly covered by `ack` whose `retransmitted` flag is false,
overwrite the candidate sample with `now − sent_at`; stop at the first
segment not wholly covered. -/
def rttSampleLoop (now ack : Nat) : List (Nat × SentSeg) → Option Nat → Option Nat
  | [], acc => acc
  | (s, seg) :: rest, acc =>
    if satAdd64 s seg.len ≤ ack then
      rttSampleLoop now ack rest
        (if seg.retransmitted then acc else some (satSub now seg.sentAt))
    else acc

/-- The `to_remove` collection loop (covered entries, stopping at the first
uncovered one) followed by the `BTreeMap::remove` calls. -/
def removeCovered (ack : Nat) (l : List (Nat × SentSeg)) : List (Nat × SentSeg) :=
  let toRemove := (l.takeWhile (fun e => satAdd64 e.1 e.2.len ≤ ack)).map (·.1)
  toRemove.foldl (fun acc s => inflightRemove s acc) l

/-- Result of delivering one ACK to the sender: updated connection,
updated presence of the stack's done-callback entry, whether the done
callback was invoked by this ACK, and the packets emitted. -/
structure AckResult where
  conn : TcpConn
  cbPresent : Bool
  fired : Bool
  emits : List Emit
deriving DecidableEq, Repr

/-- The head of the `ack > last_acked` arm of the `TcpSegment::Ack` case
of `TcpStack::on_tcp_segment`: RTT sampling/estimator update, dup-ACK
reset, removal of covered segments, cumulative-ACK advance, and the
congestion-window update (fast-recovery exit, NewReno partial-ACK
deflation + retransmit, slow start, congestion avoidance). Returns the
updated connection and the packets emitted. -/
def TcpConn.onAckNewConn (c : TcpConn) (ack now : Nat) : TcpConn × List Emit :=
  let sample := rttSampleLoop now ack c.inflight none
  let c := match sample with
    | some s => c.updateRtoWithSample s
    | none => c
  let c := { c with dupAcks := 0 }
  let newlyAcked := ack - c.lastAcked
  let c := { c with inflight := removeCovered ack c.inflight }
  let prevAcked := c.lastAcked
  let c := { c with lastAcked := ack }
  let mss := c.cfg.mss
  if c.inFastRecovery then
    if ack ≥ c.recover then
      ({ c with
          cwndBytes := min c.ssthreshBytes (satAdd64 (satSub c.nextSeq ack) mss)
          inFastRecovery := false }, [])
    else
      let newData := satSub ack prevAcked
      let c := { c with cwndBytes := if newData < c.cwndBytes then c.cwndBytes - newData else 0 }
      let c := { c with cwndBytes := satAdd64 c.cwndBytes mss }
      match c.earliestUnackedSeq with
      | some seq0 =>
        let len := ((inflightGet seq0 c.inflight).map SentSeg.len).getD c.cfg.mss
        ({ c with inflight := inflightMarkRetrans seq0 now c.inflight },
         [Emit.data seq0 len true])
      | none => (c, [])
  else
    if c.cwndBytes < c.ssthreshBytes then
      ({ c with cwndBytes := satAdd64 c.cwndBytes newlyAcked }, [])
    else
      let inc := max (satMul64 mss mss / c.cwndBytes) 1
      ({ c with cwndBytes := satAdd64 c.cwndBytes inc }, [])

/-- The fast-retransmit portion of the third-dup-ACK arm: retransmit the
earliest unacked segment (marking it retransmitted), if any. -/
def TcpConn.fastRetransmit (c : TcpConn) (now : Nat) : TcpConn × List Emit :=
  match c.earliestUnackedSeq with
  | some seq0 =>
    let len := ((inflightGet seq0 c.inflight).map SentSeg.len).getD c.cfg.mss
    ({ c with inflight := inflightMarkRetrans seq0 now c.inflight },
     [Emit.data seq0 len true])
  | none => (c, [])

/-- The `TcpSegment::Ack { ack }` arm of `TcpStack::on_tcp_segment`
(delivered at the connection's source), including the completion check and
the trailing `send_data_if_possible`. `cbPresent` is whether
`done_callbacks` currently holds an entry for this connection. -/
def TcpConn.onAck (c : TcpConn) (cbPresent : Bool) (ack now : Nat) : AckResult :=
  if ack > c.lastAcked then
    let r := c.onAckNewConn ack now
    let c := r.1
    if c.lastAcked ≥ c.totalBytes ∧ c.doneAt = none then
      { conn := { c with doneAt := some now, rtoDeadline := none },
        cbPresent := false, fired := cbPresent, emits := r.2 }
    else
      let c := c.restartRto now
      let s := c.sendDataIfPossible now
      { conn := s.1, cbPresent := cbPresent, fired := false, emits := r.2 ++ s.2 }
  else if ack = c.lastAcked then
    if c.inFastRecovery then
      let c := { c with cwndBytes := satAdd64 c.cwndBytes c.cfg.mss }
      let s := c.sendDataIfPossible now
      { conn := s.1, cbPresent := cbPresent, fired := false, emits := s.2 }
    else
      let c := { c with dupAcks := satAdd32 c.dupAcks 1 }
      let dup := c.dupAcks
      let mss := c.cfg.mss
      if dup = 3 then
        if c.lastAcked < c.recover then
          { conn := c, cbPresent := cbPresent, fired := false, emits := [] }
        else
          let c := { c with ssthreshBytes := max (c.cwndBytes / 2) (2 * mss) }
          let r := c.fastRetransmit now
          let c := { r.1 with
            cwndBytes := satAdd64 r.1.ssthreshBytes (3 * mss)
            inFastRecovery := true
            recover := r.1.nextSeq }
          let s := c.sendDataIfPossible now
          { conn := s.1, cbPresent := cbPresent, fired := false, emits := r.2 ++ s.2 }
      else if dup > 3 then
        let c := { c with cwndBytes := satAdd64 c.cwndBytes mss }
        let s := c.sendDataIfPossible now
        { conn := s.1, cbPresent := cbPresent, fired := false, emits := s.2 }
      else
        { conn := c, cbPresent := cbPresent, fired := false, emits := [] }
  else
    { conn := c, cbPresent := cbPresent, fired := false, emits := [] }

/-- `TcpRto::execute` for an existing connection: the stale-check ladder
(done / token mismatch / missing deadline / early fire), then either the
SYN retransmission path or the timeout path (halve-to-ssthresh, `cwnd =
mss`, exponential backoff, retransmit earliest unacked, rearm). -/
def TcpRto.execute (c : TcpConn) (token now : Nat) : TcpConn × List Emit :=
  if c.doneAt.isSome then (c, [])
  else if c.rtoDeadline = none ∨ c.rtoToken ≠ token then (c, [])
  else if now < c.rtoDeadline.getD 0 then (c, [])
  else
    let c := { c with rtoDeadline := none }
    if c.senderState ≠ SenderState.Established then
      if c.synSentAt.isSome then
        let rto := min (max (satMul64 c.rto 2) c.cfg.minRto) c.cfg.maxRto
        let c := { c with rto := rto, synSentAt := some now }
        ((c.scheduleRto now), [Emit.syn])
      else (c, [])
    else
      match c.earliestUnackedSeq with
      | none => (c, [])
      | some seq0 =>
        match inflightGet seq0 c.inflight with
        | none => (c, [])
        | some sent =>
          let mss := c.cfg.mss
          let c :=
            if c.inFastRecovery then
              { c with cwndBytes := min c.ssthreshBytes (satAdd64 (satSub c.nextSeq c.lastAcked) mss) }
            else c
          let c := { c with
            ssthreshBytes := max (c.cwndBytes / 2) (2 * mss)
            cwndBytes := mss
            dupAcks := 0
            inFastRecovery := false
            recover := c.nextSeq
            rto := min (max (satMul64 c.rto 2) c.cfg.minRto) c.cfg.maxRto }
          let c := { c with inflight := inflightMarkRetrans seq0 now c.inflight }
          ((c.scheduleRto now), [Emit.data seq0 sent.len true])

/-- Fold a list of `(ack, now)` deliveries through `TcpConn.onAck`,
counting done-callback invocations. -/
def TcpConn.runAcks : TcpConn × Bool → List (Nat × Nat) → (TcpConn × Bool) × Nat
  | s, [] => (s, 0)
  | (c, cb), (ack, now) :: rest =>
    let r := c.onAck cb ack now
    let (sf, fires) := TcpConn.runAcks (r.conn, r.cbPresent) rest
    (sf, (if r.fired then 1 else 0) + fires)

/-! ## DCTCP connection state machine (`src/proto/dctcp.rs`)

Same modelling conventions as TCP.  DCTCP's `alpha` is an `f64` and is
not modelled; the only integer consequence of the α computation is the
window-boundary replacement congestion window
`(cwnd · (1 − α/2)).max(mss).floor() as u64`, which enters the model as
an unconstrained parameter `floatCwnd` (universally quantified in the
theorems), followed by the source's integer clamp `.max(mss)`. -/

/-- `DctcpConfig` (g is an `f64` gain; not modelled). -/
structure DctcpConfig where
  mss : Nat
  ackBytes : Nat
  initCwndBytes : Nat
  initSsthreshBytes : Nat
  initRto : Nat
  maxRto : Nat
deriving DecidableEq, Repr

/-- DCTCP sender state (`DctcpConn`; `alpha` and the cwnd log omitted,
inflight entries are `seq ↦ len`). -/
structure DctcpConn where
  totalBytes : Nat
  cfg : DctcpConfig
  nextSeq : Nat
  lastAcked : Nat
  cwndBytes : Nat
  ssthreshBytes : Nat
  dupAcks : Nat
  rto : Nat
  inflight : List (Nat × Nat)
  windowEnd : Nat
  ackedInWindow : Nat
  markedInWindow : Nat
  doneAt : Option Nat
deriving DecidableEq, Repr

/-- `DctcpConn::new` (shared fields; `window_end` starts at the initial cwnd). -/
def DctcpConn.new (totalBytes : Nat) (cfg : DctcpConfig) : DctcpConn :=
  { totalBytes := totalBytes
    cfg := cfg
    nextSeq := 0
    lastAcked := 0
    cwndBytes := max cfg.initCwndBytes cfg.mss
    ssthreshBytes := max cfg.initSsthreshBytes cfg.mss
    dupAcks := 0
    rto := cfg.initRto
    inflight := []
    windowEnd := max cfg.initCwndBytes cfg.mss
    ackedInWindow := 0
    markedInWindow := 0
    doneAt := none }

/-- `DctcpConn::earliest_unacked_seq`. -/
def DctcpConn.earliestUnackedSeq (c : DctcpConn) : Option Nat :=
  c.inflight.head?.map (·.1)

/-- `BTreeMap::get` on the `seq ↦ len` map. -/
def dinflightGet (s : Nat) : List (Nat × Nat) → Option Nat
  | [] => none
  | (k, v) :: t => if k = s then some v else dinflightGet s t

/-- `BTreeMap::remove` on the `seq ↦ len` map. -/
def dinflightRemove (s : Nat) : List (Nat × Nat) → List (Nat × Nat)
  | [] => []
  | (k, v) :: t => if k = s then t else (k, v) :: dinflightRemove s t

/-- `BTreeMap::insert` on the `seq ↦ len` map. -/
def dinflightInsert (s len : Nat) : List (Nat × Nat) → List (Nat × Nat)
  | [] => [(s, len)]
  | (k, v) :: t =>
    if s < k then (s, len) :: (k, v) :: t
    else if s = k then (s, len) :: t
    else (k, v) :: dinflightInsert s len t

/-- Covered-entry removal in the DCTCP ACK arm (same loop shape as TCP). -/
def dremoveCovered (ack : Nat) (l : List (Nat × Nat)) : List (Nat × Nat) :=
  let toRemove := (l.takeWhile (fun e => satAdd64 e.1 e.2 ≤ ack)).map (·.1)
  toRemove.foldl (fun acc s => dinflightRemove s acc) l

/-- The emission loop of `DctcpStack::send_data_if_possible`. -/
def DctcpConn.sendLoop : Nat → DctcpConn → Nat → DctcpConn × List Emit
  | 0, c, _ => (c, [])
  | fuel + 1, c, avail =>
    if avail > 0 ∧ c.nextSeq < c.totalBytes then
      let remain := c.totalBytes - c.nextSeq
      let len := min (min c.cfg.mss remain) avail
      if len = 0 then (c, [])
      else
        let seq := c.nextSeq
        let c := { c with
          nextSeq := satAdd64 c.nextSeq len
          inflight := dinflightInsert seq len c.inflight }
        let (c', out) := DctcpConn.sendLoop fuel c (satSub avail len)
        (c', Emit.data seq len false :: out)
    else (c, [])

/-- `DctcpStack::send_data_if_possible` for one connection (the
`DctcpRto` events it schedules carry no connection state and are not
tracked here). -/
def DctcpConn.sendDataIfPossible (c : DctcpConn) : DctcpConn × List Emit :=
  if c.doneAt.isSome then (c, [])
  else
    let inflightBytes := (c.inflight.map (·.2)).sum
    let avail := satSub c.cwndBytes inflightBytes
    DctcpConn.sendLoop (c.totalBytes - c.nextSeq + 1) c avail

/-- Result of delivering one DCTCP ACK. -/
structure DAckResult where
  conn : DctcpConn
  cbPresent : Bool
  fired : Bool
  emits : List Emit
deriving DecidableEq, Repr

/-- The head of the `ack > last_acked` arm of the `DctcpSegment::Ack`
case of `DctcpStack::on_dctcp_segment`: dup reset, cumulative advance,
covered-segment removal, the per-window ECN accounting with the
window-boundary multiplicative decrease, and slow-start / congestion-
avoidance growth. `floatCwnd` stands for the `f64` product
`(cwnd · (1 − α/2)).max(mss).floor() as u64` (see the section comment). -/
def DctcpConn.onAckNewConn (c : DctcpConn) (ack : Nat) (ecnEcho : Bool)
    (floatCwnd : Nat) : DctcpConn :=
  let c : DctcpConn := { c with dupAcks := 0 }
  let newlyAcked := ack - c.lastAcked
  let c : DctcpConn := { c with lastAcked := ack }
  let c : DctcpConn := { c with inflight := dremoveCovered ack c.inflight }
  let c : DctcpConn := { c with ackedInWindow := satAdd64 c.ackedInWindow newlyAcked }
  let c : DctcpConn :=
    if ecnEcho then { c with markedInWindow := satAdd64 c.markedInWindow newlyAcked } else c
  let c : DctcpConn :=
    if c.lastAcked ≥ c.windowEnd then
      let c : DctcpConn :=
        if c.markedInWindow > 0 then
          { c with cwndBytes := max floatCwnd c.cfg.mss }
        else c
      { c with
        ackedInWindow := 0
        markedInWindow := 0
        windowEnd := satAdd64 c.lastAcked c.cwndBytes }
    else c
  if c.cwndBytes < c.ssthreshBytes then
    { c with cwndBytes := satAdd64 c.cwndBytes newlyAcked }
  else
    let mss := c.cfg.mss
    { c with cwndBytes := satAdd64 c.cwndBytes (max (satMul64 mss mss / c.cwndBytes) 1) }

/-- The `DctcpSegment::Ack { ack, ecn_echo }` arm of
`DctcpStack::on_dctcp_segment` at the source, including the completion
check and the trailing `send_data_if_possible`. -/
def DctcpConn.onAck (c : DctcpConn) (cbPresent : Bool) (ack : Nat) (ecnEcho : Bool)
    (now floatCwnd : Nat) : DAckResult :=
  if ack > c.lastAcked then
    let c := c.onAckNewConn ack ecnEcho floatCwnd
    if c.lastAcked ≥ c.totalBytes ∧ c.doneAt = none then
      { conn := { c with doneAt := some now }, cbPresent := false,
        fired := cbPresent, emits := [] }
    else
      let s := c.sendDataIfPossible
      { conn := s.1, cbPresent := cbPresent, fired := false, emits := s.2 }
  else if ack = c.lastAcked then
    let c : DctcpConn := { c with dupAcks := satAdd32 c.dupAcks 1 }
    let dup := c.dupAcks
    let mss := c.cfg.mss
    if dup = 3 then
      match c.earliestUnackedSeq with
      | some seq0 =>
        let c : DctcpConn := { c with ssthreshBytes := max (c.cwndBytes / 2) (2 * mss) }
        let c : DctcpConn := { c with cwndBytes := satAdd64 c.ssthreshBytes (3 * mss) }
        let len := (dinflightGet seq0 c.inflight).getD c.cfg.mss
        { conn := c, cbPresent := cbPresent, fired := false,
          emits := [Emit.data seq0 len true] }
      | none => { conn := c, cbPresent := cbPresent, fired := false, emits := [] }
    else if dup > 3 then
      let c : DctcpConn := { c with cwndBytes := satAdd64 c.cwndBytes mss }
      let s := c.sendDataIfPossible
      { conn := s.1, cbPresent := cbPresent, fired := false, emits := s.2 }
    else
      { conn := c, cbPresent := cbPresent, fired := false, emits := [] }
  else
    { conn := c, cbPresent := cbPresent, fired := false, emits := [] }

/-- `DctcpRto::execute` for an existing connection: no-op when the
connection is done or `seq` is no longer the earliest unacked segment;
otherwise back off and retransmit. -/
def DctcpRto.execute (c : DctcpConn) (seq _now : Nat) : DctcpConn × List Emit :=
  if c.doneAt.isSome then (c, [])
  else if c.earliestUnackedSeq ≠ some seq then (c, [])
  else
    match dinflightGet seq c.inflight with
    | none => (c, [])
    | some len =>
      let mss := c.cfg.mss
      let c := { c with
        ssthreshBytes := max (c.cwndBytes / 2) (2 * mss)
        cwndBytes := mss
        dupAcks := 0
        rto := min (satMul64 c.rto 2) c.cfg.maxRto }
      (c, [Emit.data seq len true])

/-- Fold DCTCP ACK deliveries, counting done-callback invocations.
Inputs are `(ack, ecnEcho, now, floatCwnd)`. -/
def DctcpConn.runAcks : DctcpConn × Bool → List (Nat × Bool × Nat × Nat) → (DctcpConn × Bool) × Nat
  | s, [] => (s, 0)
  | (c, cb), (ack, echo, now, fc) :: rest =>
    let r := c.onAck cb ack echo now fc
    let (sf, fires) := DctcpConn.runAcks (r.conn, r.cbPresent) rest
    (sf, (if r.fired then 1 else 0) + fires)

/-! ## Predicates used by the theorems -/

/-- Class discipline of the two sub-queues: `hi` holds only high-priority
packets and `lo` only low-priority ones (true of every queue reachable
from `PriorityQueue::new`, since `enqueue` routes by `is_high_priority`). -/
def PQWf (q : PriorityQueue) : Prop :=
  (∀ p ∈ q.hi, isHighPriority p = true) ∧ (∀ p ∈ q.lo, isHighPriority p = false)

/-- Following the spec's words (refinement side of C3): "sample RTT from
the *oldest* newly-covered segment whose `retransmitted=false`" — the
first non-retransmitted entry of the covered prefix of `inflight`. -/
def rttSampleOldestSpec (now ack : Nat) (l : List (Nat × SentSeg)) : Option Nat :=
  (((l.takeWhile (fun e => satAdd64 e.1 e.2.len ≤ ack)).filter
      (fun e => !e.2.retransmitted)).head?).map (fun e => satSub now e.2.sentAt)

/-- The `impl Ord for ScheduledEvent` comparison before reversal:
lexicographic on `(at, seq)` (strict). -/
def keyLt (a b : Nat × Nat) : Prop := a.1 < b.1 ∨ (a.1 = b.1 ∧ a.2 < b.2)

/-- Window-size invariant of a TCP connection: the congestion window and
the slow-start threshold hold at least one MSS, and all three quantities
fit in their machine widths. -/
def TcpCwndInv (c : TcpConn) : Prop :=
  c.cfg.mss ≤ c.cwndBytes ∧ c.cfg.mss ≤ c.ssthreshBytes ∧
  c.cwndBytes ≤ u64Max ∧ c.ssthreshBytes ≤ u64Max ∧ c.cfg.mss ≤ u32Max

/-- Window-size invariant of a DCTCP connection. -/
def DctcpCwndInv (c : DctcpConn) : Prop :=
  c.cfg.mss ≤ c.cwndBytes ∧ c.cfg.mss ≤ c.ssthreshBytes ∧
  c.cwndBytes ≤ u64Max ∧ c.ssthreshBytes ≤ u64Max ∧ c.cfg.mss ≤ u32Max

/-- Once a TCP connection is done its callback entry is gone (the stack
removes the entry when it fires; a fresh connection trivially satisfies
this, having `done_at = None`). -/
def TcpDoneInv (c : TcpConn) (cbPresent : Bool) : Prop :=
  c.doneAt.isSome → cbPresent = false

/-- DCTCP version of `TcpDoneInv`. -/
def DctcpDoneInv (c : DctcpConn) (cbPresent : Bool) : Prop :=
  c.doneAt.isSome → cbPresent = false

/-- A concrete TCP configuration used by closed witness statements. -/
def tcpCfgEx : TcpConfig :=
  { mss := 1460
    ackBytes := 64
    initCwndBytes := 14600
    initSsthreshBytes := 100000
    initRto := 20000
    minRto := 5000
    maxRto := 200000
    handshake := false
    appLimitedPps := none }

/-- A concrete DCTCP configuration used by closed witness statements. -/
def dctcpCfgEx : DctcpConfig :=
  { mss := 1460
    ackBytes := 64
    initCwndBytes := 14600
    initSsthreshBytes := 100000
    initRto := 20000
    maxRto := 200000 }

/-- Number of BFS-undiscovered nodes (distance still the sentinel). -/
def undiscCount (n : Nat) (dist : List Nat) : Nat :=
  ((List.range n).filter (fun v => distGetD dist v = i32MaxN)).length

/-- End-state properties of the per-destination BFS: the distance array is
exact — attained and minimal on discovered nodes, sentinel exactly on the
unreachable ones. -/
def BfsFinal (rev : List (List Nat)) (n dst : Nat) (dist : List Nat) : Prop :=
  dist.length = n ∧ distGetD dist dst = 0 ∧
  (∀ v, v < n → distGetD dist v ≠ i32MaxN →
    RPath rev dst v (distGetD dist v) ∧
    ∀ k, RPath rev dst v k → distGetD dist v ≤ k) ∧
  (∀ v, v < n → distGetD dist v ≠ i32MaxN → distGetD dist v ≤ n) ∧
  (∀ v k, RPath rev dst v k → distGetD dist v ≠ i32MaxN)

/-- Loop invariant of the BFS in `ensure_built`: the queue splits into a
level-`d` segment followed by a level-`d+1` segment; discovered labels are
attained and minimal; every level up to `d` is inhabited; undiscovered
nodes lie strictly beyond level `d`; processed nodes have all their
reverse-neighbors discovered. -/
def BfsInv (rev : List (List Nat)) (n dst : Nat) (dist : List Nat)
    (d : Nat) (q1 q2 : List Nat) : Prop :=
  dist.length = n ∧
  distGetD dist dst = 0 ∧
  (∀ v, v < n → distGetD dist v ≠ i32MaxN →
    RPath rev dst v (distGetD dist v) ∧
    ∀ k, RPath rev dst v k → distGetD dist v ≤ k) ∧
  (∀ v ∈ q1, v < n ∧ distGetD dist v = d) ∧
  (∀ v ∈ q2, v < n ∧ distGetD dist v = d + 1) ∧
  (∀ j, j ≤ d → ∃ v, v < n ∧ distGetD dist v = j) ∧
  (∀ v, v < n → distGetD dist v = i32MaxN → ∀ k, RPath rev dst v k → d + 1 ≤ k) ∧
  (∀ v, v < n → distGetD dist v ≠ i32MaxN → v ∉ q1 ++ q2 →
    ∀ p ∈ rev.getD v [], distGetD dist p ≠ i32MaxN) ∧
  (∀ v, v < n → distGetD dist v ≠ i32MaxN → distGetD dist v ≤ d + 1)

/-- A three-node directed chain 0 -> 1 -> 2 used by closed witnesses. -/
def adjEx : List (List Nat) := [[1], [2], []]

/-- Reverse adjacency of `adjEx`. -/
def revEx : List (List Nat) := [[], [0], [1]]

/-! # Theorems -/

/-! ## C9: collective step counts and chunk sizes -/

/-- C9, counterexample. The claim says `chunk_bytes` returns
`ceil(comm_bytes / ranks)` for Allreduce for *every* `comm_bytes`; at
`comm_bytes = u64::MAX`, `ranks = 2`, the saturating add inside
`div_ceil` caps `n + (d−1)` at `u64::MAX`, and the result
`9223372036854775807` falls short of `⌈u64::MAX / 2⌉ = (u64::MAX+1)/2 =
9223372036854775808`: doubling it does not reach `comm_bytes` back. -/
theorem chunkBytes_not_ceil_at_u64Max :
    CollectiveOp.chunkBytes CollectiveOp.Allreduce u64Max 2 ≠ (u64Max + (2 - 1)) / 2 ∧
    2 * CollectiveOp.chunkBytes CollectiveOp.Allreduce u64Max 2 < u64Max := by
  constructor <;> decide

/-- C9, amended: for every `ranks ≥ 1`, `total_steps` is `2·(ranks−1)` for
Allreduce and `ranks−1` for the other three ops provided `2·(ranks−1)`
does not overflow `usize`; and `chunk_bytes` is `⌈comm_bytes / ranks⌉`
for Allreduce/Reducescatter/Alltoall provided `comm_bytes + ranks − 1`
does not overflow `u64` (beyond these bounds the saturating arithmetic
caps the results), and exactly `comm_bytes` for Allgather. The last
conjunct certifies that the closed form `(comm + (ranks−1)) / ranks` is
the ceiling: it is the least `r` with `ranks · r ≥ comm`. -/
theorem collectiveOp_totalSteps_chunkBytes (ranks comm : Nat) (h1 : 1 ≤ ranks)
    (hs : 2 * (ranks - 1) ≤ usizeMax) (hc : comm + (ranks - 1) ≤ u64Max) :
    CollectiveOp.totalSteps CollectiveOp.Allreduce ranks = 2 * (ranks - 1) ∧
    CollectiveOp.totalSteps CollectiveOp.Allgather ranks = ranks - 1 ∧
    CollectiveOp.totalSteps CollectiveOp.Reducescatter ranks = ranks - 1 ∧
    CollectiveOp.totalSteps CollectiveOp.Alltoall ranks = ranks - 1 ∧
    CollectiveOp.chunkBytes CollectiveOp.Allreduce comm ranks = (comm + (ranks - 1)) / ranks ∧
    CollectiveOp.chunkBytes CollectiveOp.Reducescatter comm ranks = (comm + (ranks - 1)) / ranks ∧
    CollectiveOp.chunkBytes CollectiveOp.Alltoall comm ranks = (comm + (ranks - 1)) / ranks ∧
    CollectiveOp.chunkBytes CollectiveOp.Allgather comm ranks = comm ∧
    comm ≤ ranks * ((comm + (ranks - 1)) / ranks) ∧
    (∀ r, comm ≤ ranks * r → (comm + (ranks - 1)) / ranks ≤ r) := by
  have hmax : max ranks 1 = ranks := Nat.max_eq_left h1
  have hdc : divCeilSrc comm ranks = (comm + (ranks - 1)) / ranks := by
    unfold divCeilSrc satAdd64 satSub
    rcases Nat.lt_or_ge ranks 2 with h2 | h2
    · interval_cases ranks
      simp
    · have hne : ¬ ranks ≤ 1 := by omega
      simp only [hne, if_false, Nat.min_eq_left hc]
  have hdivmod := Nat.div_add_mod (comm + (ranks - 1)) ranks
  have hmodlt : (comm + (ranks - 1)) % ranks < ranks := Nat.mod_lt _ (by omega)
  refine ⟨?_, rfl, rfl, rfl, ?_, ?_, ?_, rfl, ?_, ?_⟩
  · show satMulUsize (ranks - 1) 2 = 2 * (ranks - 1)
    unfold satMulUsize
    omega
  · simpa [CollectiveOp.chunkBytes, hmax] using hdc
  · simpa [CollectiveOp.chunkBytes, hmax] using hdc
  · simpa [CollectiveOp.chunkBytes, hmax] using hdc
  · omega
  · intro r hr
    have hb : comm + (ranks - 1) ≤ ranks * r + (ranks - 1) := Nat.add_le_add_right hr _
    exact (Nat.div_le_iff_le_mul_add_pred (show 0 < ranks by omega)).2 hb

/-- C9 witness: the amended statement at `ranks = 4`, `comm = 100`. -/
theorem collectiveOp_totalSteps_chunkBytes_witness :
    CollectiveOp.totalSteps CollectiveOp.Allreduce 4 = 2 * (4 - 1) ∧
    CollectiveOp.chunkBytes CollectiveOp.Allreduce 100 4 = (100 + (4 - 1)) / 4 :=
  ⟨(collectiveOp_totalSteps_chunkBytes 4 100 (by decide) (by decide) (by decide)).1,
   (collectiveOp_totalSteps_chunkBytes 4 100 (by decide) (by decide) (by decide)).2.2.2.2.1⟩

/-! ## C8: preset-route walking -/

/-- After `k` `advance`s, a packet whose routing was `Preset path i` has
cursor `min (i + k) usizeMax` — the cursor keeps incrementing past the end
of the path (saturating at `usize::MAX`). -/
theorem advanceN_preset_routing (p : Packet) (path : List Nat) (i : Nat)
    (h : p.routing = Routing.Preset path i) (hi : i ≤ usizeMax) (k : Nat) :
    (p.advanceN k).routing = Routing.Preset path (min (i + k) usizeMax) := by
  induction k with
  | zero =>
    simpa [Packet.advanceN, h] using by omega
  | succ k ih =>
    show ((p.advanceN k).advance).routing = _
    simp only [Packet.advance, ih, satAddUsize]
    have : min (min (i + k) usizeMax + 1) usizeMax = min (i + (k + 1)) usizeMax := by omega
    simpa using this

/-- After `k` `advance`s, a packet whose routing was `Mixed pre i` with
`i ≤ pre.length < usizeMax` has cursor `min (i + k) pre.length` — the
Mixed cursor clamps at the path length. -/
theorem advanceN_mixed_routing (p : Packet) (pre : List Nat) (i : Nat)
    (h : p.routing = Routing.Mixed pre i) (hi : i ≤ pre.length)
    (hlen : pre.length < usizeMax) (k : Nat) :
    (p.advanceN k).routing = Routing.Mixed pre (min (i + k) pre.length) := by
  induction k with
  | zero =>
    simpa [Packet.advanceN, h] using by omega
  | succ k ih =>
    show ((p.advanceN k).advance).routing = _
    simp only [Packet.advance, ih, satAddUsize]
    have hm : min (min (i + k) pre.length + 1) usizeMax = min (i + k) pre.length + 1 := by omega
    rw [hm]
    by_cases hc : min (i + k) pre.length + 1 < pre.length
    · simp only [hc, if_true]
      have : min (i + k) pre.length + 1 = min (i + (k + 1)) pre.length := by omega
      simpa using this
    · simp only [hc, if_false]
      have : pre.length = min (i + (k + 1)) pre.length := by omega
      simpa using this

/-- `advance` always bumps `hops_taken` with `u32` saturation, for every
routing variant. -/
theorem advance_hopsTaken (p : Packet) :
    (p.advance).hopsTaken = min (p.hopsTaken + 1) u32Max := by
  unfold Packet.advance
  cases p.routing <;> simp [satAdd32] <;> split <;> rfl

/-- After `k` `advance`s, `hops_taken` is `min (h₀ + k) u32Max`. -/
theorem advanceN_hopsTaken (p : Packet) (h0 : p.hopsTaken ≤ u32Max) (k : Nat) :
    (p.advanceN k).hopsTaken = min (p.hopsTaken + k) u32Max := by
  induction k with
  | zero => simp [Packet.advanceN]; omega
  | succ k ih =>
    show ((p.advanceN k).advance).hopsTaken = _
    rw [advance_hopsTaken, ih]
    omega

/-- C8, counterexample. On the two-node preset route `[7, 8]` the route is
exhausted after one `advance` (`preset_next` is `none`), but a further
`advance` is *not* a no-op on the packet's routing state: the `Preset`
cursor moves from 1 to 2. -/
theorem advance_past_end_changes_routing :
    ((Packet.newPreset 1 10 100 [7, 8]).advance).presetNext = none ∧
    ((Packet.newPreset 1 10 100 [7, 8]).advance.advance).routing ≠
      ((Packet.newPreset 1 10 100 [7, 8]).advance).routing := by
  constructor <;> decide

/-- C8, amended: walking a preset route `p` of length `n` by `advance`
yields `preset_next() = p[1], …, p[n−1]` and then `none` forever, and
`hops_taken` increments with saturation at `u32::MAX`; but `advance` past
the end is *not* a no-op on the routing state: the `Preset` cursor keeps
incrementing (saturating only at `usize::MAX`), while a `Mixed` cursor
clamps at its path length. -/
theorem packet_preset_walk (id f s : Nat) (path : List Nat) (k : Nat)
    (hk : k + 1 ≤ usizeMax) :
    ((Packet.newPreset id f s path).advanceN k).presetNext = path.get? (k + 1) ∧
    (path.length ≤ k + 1 → ((Packet.newPreset id f s path).advanceN k).presetNext = none) ∧
    ((Packet.newPreset id f s path).advanceN k).hopsTaken = min k u32Max ∧
    ((Packet.newPreset id f s path).advanceN k).routing =
      Routing.Preset path (min k usizeMax) ∧
    (∀ pre : List Nat, 1 ≤ pre.length → pre.length < usizeMax →
      ((Packet.newMixed id f s pre 0).advanceN k).routing =
        Routing.Mixed pre (min k pre.length)) := by
  have hroute : (Packet.newPreset id f s path).routing = Routing.Preset path 0 := rfl
  have hr := advanceN_preset_routing _ path 0 hroute (by decide) k
  have hnext : ((Packet.newPreset id f s path).advanceN k).presetNext = path.get? (k + 1) := by
    unfold Packet.presetNext
    rw [hr]
    simp only [satAddUsize]
    have : min (min (0 + k) usizeMax + 1) usizeMax = k + 1 := by omega
    rw [this]
  refine ⟨hnext, ?_, ?_, ?_, ?_⟩
  · intro hlen
    rw [hnext]
    exact List.get?_eq_none.2 hlen
  · have := advanceN_hopsTaken (Packet.newPreset id f s path) (Nat.zero_le _) k
    simpa [Packet.newPreset] using this
  · simpa using hr
  · intro pre h1 h2
    have := advanceN_mixed_routing (Packet.newMixed id f s pre 0) pre 0 rfl
      (by omega) h2 k
    simpa using this

/-- C8 witness: the amended statement on the route `[3, 4, 5]` after two
`advance`s. -/
theorem packet_preset_walk_witness :
    ((Packet.newPreset 1 2 100 [3, 4, 5]).advanceN 2).presetNext = [3, 4, 5].get? 3 ∧
    2 + 1 ≤ usizeMax :=
  ⟨(packet_preset_walk 1 2 100 [3, 4, 5] 2 (by decide)).1, by decide⟩

/-! ## C1: ECN marking at enqueue -/

/-- C1 (spec-modelled threshold test around the source's
`Packet::mark_ce_if_ect`): when the egress link has an ECN threshold `t`
and `queue_bytes + pkt.size > t`, the enqueued packet is CE iff it
carried ECT (or was already CE); when the occupancy test fails, when the
link has no threshold, or when the packet does not carry ECT, the fabric
never turns it CE — non-ECT packets pass through with their code-point
intact. -/
theorem forwardEcnMark_spec (t q : Nat) (pkt : Packet) (hover : q + pkt.sizeBytes > t) :
    ((forwardEcnMark (some t) q pkt).ecn = Ecn.Ce ↔
      (pkt.ecn = Ecn.Ect0 ∨ pkt.ecn = Ecn.Ce)) ∧
    (pkt.ecn = Ecn.Ect0 → (forwardEcnMark (some t) q pkt).ecn = Ecn.Ce) ∧
    (pkt.ecn = Ecn.NotEct → (forwardEcnMark (some t) q pkt).ecn = Ecn.NotEct) ∧
    (∀ t' q' pk' , q' + Packet.sizeBytes pk' ≤ t' → forwardEcnMark (some t') q' pk' = pk') ∧
    (∀ q' pk', forwardEcnMark none q' pk' = pk') := by
  refine ⟨?_, ?_, ?_, ?_, ?_⟩
  · unfold forwardEcnMark Packet.markCeIfEct
    simp only [hover, if_true]
    cases h : pkt.ecn <;> simp [Ecn.isEct, h]
  · intro h
    unfold forwardEcnMark Packet.markCeIfEct
    simp [hover, h, Ecn.isEct]
  · intro h
    unfold forwardEcnMark Packet.markCeIfEct
    simp [hover, h, Ecn.isEct]
  · intro t' q' pk' hle
    unfold forwardEcnMark
    have hng : ¬ (q' + pk'.sizeBytes > t') := by omega
    simp only [hng, if_false]
  · intro q' pk'
    rfl

/-- C1 witness: an over-threshold ECT packet is marked CE. -/
theorem forwardEcnMark_spec_witness :
    (forwardEcnMark (some 5) 0 { Packet.newDynamic 1 2 100 0 1 with ecn := Ecn.Ect0 }).ecn
       = Ecn.Ce ∧ (0 : Nat) + 100 > 5 :=
  ⟨(forwardEcnMark_spec 5 0 { Packet.newDynamic 1 2 100 0 1 with ecn := Ecn.Ect0 }
      (by decide)).2.1 rfl, by decide⟩

/-! ## C4: stale RTO events are no-ops -/

/-- C4: a stale RTO event — the connection has completed, or (for TCP)
the carried token no longer matches the connection's current timer token,
or (for DCTCP, whose RTO events are identified by the earliest-unacked
sequence number they were armed for) `seq` is no longer the earliest
unacked segment — retransmits nothing and leaves the connection state,
in particular `cwnd`, `ssthresh` and `rto`, unchanged. -/
theorem rto_stale_is_noop (tc : TcpConn) (token now : Nat) (dc : DctcpConn) (dseq dnow : Nat)
    (h1 : tc.doneAt.isSome ∨ tc.rtoToken ≠ token)
    (h2 : dc.doneAt.isSome ∨ dc.earliestUnackedSeq ≠ some dseq) :
    TcpRto.execute tc token now = (tc, []) ∧
    DctcpRto.execute dc dseq dnow = (dc, []) := by
  constructor
  · unfold TcpRto.execute
    by_cases hd : tc.doneAt.isSome
    · simp [hd]
    · have ht : tc.rtoToken ≠ token := by tauto
      simp [hd, ht]
  · unfold DctcpRto.execute
    by_cases hd : dc.doneAt.isSome
    · simp [hd]
    · have ht : dc.earliestUnackedSeq ≠ some dseq := by tauto
      simp [hd, ht]

/-- C4 witness: a freshly constructed TCP connection with a mismatched
token and a fresh DCTCP connection with no inflight data. -/
theorem rto_stale_is_noop_witness :
    TcpRto.execute (TcpConn.new 1000 ⟨1460, 64, 14600, 1460000, 200000, 200000,
        200000000, false, none⟩) 1 50
      = (TcpConn.new 1000 ⟨1460, 64, 14600, 1460000, 200000, 200000,
        200000000, false, none⟩, []) ∧
    DctcpRto.execute (DctcpConn.new 1000 ⟨1460, 64, 14600, 1460000, 200000,
        200000000⟩) 0 50
      = (DctcpConn.new 1000 ⟨1460, 64, 14600, 1460000, 200000, 200000000⟩, []) :=
  rto_stale_is_noop _ 1 50 _ 0 50 (by decide) (by decide)

/-! ## C7: strict priority and per-class FIFO -/

/-- `enqueue` when the byte budget would be exceeded: reject. -/
theorem enqueue_overflow (q : PriorityQueue) (p : Packet)
    (h : satAdd64 q.curBytes p.sizeBytes > q.maxBytes) : q.enqueue p = (q, false) := by
  unfold PriorityQueue.enqueue
  simp [h]

/-- `enqueue` of a high-priority packet within budget. -/
theorem enqueue_high (q : PriorityQueue) (p : Packet)
    (h : ¬ satAdd64 q.curBytes p.sizeBytes > q.maxBytes) (hp : isHighPriority p = true) :
    q.enqueue p =
      ({ q with curBytes := satAdd64 q.curBytes p.sizeBytes, hi := q.hi ++ [p] }, true) := by
  unfold PriorityQueue.enqueue
  simp [h, hp]

/-- `enqueue` of a low-priority packet within budget. -/
theorem enqueue_low (q : PriorityQueue) (p : Packet)
    (h : ¬ satAdd64 q.curBytes p.sizeBytes > q.maxBytes) (hp : isHighPriority p = false) :
    q.enqueue p =
      ({ q with curBytes := satAdd64 q.curBytes p.sizeBytes, lo := q.lo ++ [p] }, true) := by
  unfold PriorityQueue.enqueue
  simp [h, hp]

/-- `dequeue` with a nonempty high sub-queue pops its head. -/
theorem dequeue_hi (q : PriorityQueue) (p : Packet) (t : List Packet) (h : q.hi = p :: t) :
    q.dequeue = (some p, { q with hi := t, curBytes := q.curBytes - p.sizeBytes }) := by
  unfold PriorityQueue.dequeue
  rw [h]

/-- `dequeue` with an empty high sub-queue pops the low head. -/
theorem dequeue_lo (q : PriorityQueue) (p : Packet) (t : List Packet)
    (h : q.hi = []) (h2 : q.lo = p :: t) :
    q.dequeue = (some p, { q with lo := t, curBytes := q.curBytes - p.sizeBytes }) := by
  unfold PriorityQueue.dequeue
  rw [h, h2]

/-- `dequeue` of an empty queue. -/
theorem dequeue_empty (q : PriorityQueue) (h : q.hi = []) (h2 : q.lo = []) :
    q.dequeue = (none, q) := by
  unfold PriorityQueue.dequeue
  rw [h, h2]

/-- Unfolding equation for `run` on an `enq`. -/
theorem pq_run_enq (q : PriorityQueue) (p : Packet) (ops : List PQOp) :
    PriorityQueue.run q (PQOp.enq p :: ops) =
      ((PriorityQueue.run (q.enqueue p).1 ops).1,
       (if (q.enqueue p).2 then [p] else []) ++ (PriorityQueue.run (q.enqueue p).1 ops).2.1,
       (PriorityQueue.run (q.enqueue p).1 ops).2.2) := by
  rcases hqe : q.enqueue p with ⟨q1, ok⟩
  simp [PriorityQueue.run, hqe]

/-- Unfolding equation for `run` on a `deq`. -/
theorem pq_run_deq (q : PriorityQueue) (ops : List PQOp) :
    PriorityQueue.run q (PQOp.deq :: ops) =
      ((PriorityQueue.run (q.dequeue).2 ops).1,
       (PriorityQueue.run (q.dequeue).2 ops).2.1,
       (match (q.dequeue).1 with | some p => [p] | none => []) ++
         (PriorityQueue.run (q.dequeue).2 ops).2.2) := by
  rcases hqd : q.dequeue with ⟨po, q1⟩
  simp [PriorityQueue.run, hqd]

/-- Per-class conservation through a run: the packets dequeued in each
class, followed by that class's residual sub-queue, are exactly the
initial sub-queue followed by the accepted packets of that class, in
order. -/
theorem pq_run_conservation (ops : List PQOp) : ∀ q : PriorityQueue, PQWf q →
    PQWf (PriorityQueue.run q ops).1 ∧
    ((PriorityQueue.run q ops).2.2).filter isHighPriority ++
        ((PriorityQueue.run q ops).1).hi =
      q.hi ++ ((PriorityQueue.run q ops).2.1).filter isHighPriority ∧
    ((PriorityQueue.run q ops).2.2).filter (fun p => !isHighPriority p) ++
        ((PriorityQueue.run q ops).1).lo =
      q.lo ++ ((PriorityQueue.run q ops).2.1).filter (fun p => !isHighPriority p) := by
  induction ops with
  | nil => intro q hq; simpa [PriorityQueue.run] using hq
  | cons op ops ih =>
    intro q hq
    cases op with
    | enq p =>
      rw [pq_run_enq]
      by_cases hcap : satAdd64 q.curBytes p.sizeBytes > q.maxBytes
      · rw [enqueue_overflow q p hcap]
        have := ih q hq
        simpa using this
      · cases hp : isHighPriority p with
        | true =>
          rw [enqueue_high q p hcap hp]
          set q1 : PriorityQueue :=
            { q with curBytes := satAdd64 q.curBytes p.sizeBytes, hi := q.hi ++ [p] } with hq1
          have hwf1 : PQWf q1 := by
            refine ⟨?_, hq.2⟩
            intro x hx
            rcases List.mem_append.1 hx with h | h
            · exact hq.1 x h
            · rw [List.eq_of_mem_singleton h]; exact hp
          obtain ⟨h1, h2, h3⟩ := ih q1 hwf1
          refine ⟨h1, ?_, ?_⟩
          · rw [h2]
            simp [hq1, List.filter_cons, hp]
          · rw [h3]
            simp [hq1, List.filter_cons, hp]
        | false =>
          rw [enqueue_low q p hcap hp]
          set q1 : PriorityQueue :=
            { q with curBytes := satAdd64 q.curBytes p.sizeBytes, lo := q.lo ++ [p] } with hq1
          have hwf1 : PQWf q1 := by
            refine ⟨hq.1, ?_⟩
            intro x hx
            rcases List.mem_append.1 hx with h | h
            · exact hq.2 x h
            · rw [List.eq_of_mem_singleton h]; exact hp
          obtain ⟨h1, h2, h3⟩ := ih q1 hwf1
          refine ⟨h1, ?_, ?_⟩
          · rw [h2]
            simp [hq1, List.filter_cons, hp]
          · rw [h3]
            simp [hq1, List.filter_cons, hp]
    | deq =>
      rw [pq_run_deq]
      cases hh : q.hi with
      | cons p t =>
        rw [dequeue_hi q p t hh]
        set q1 : PriorityQueue := { q with hi := t, curBytes := q.curBytes - p.sizeBytes } with hq1
        have hwf1 : PQWf q1 := by
          refine ⟨?_, hq.2⟩
          intro x hx
          exact hq.1 x (hh ▸ List.mem_cons_of_mem p hx)
        obtain ⟨h1, h2, h3⟩ := ih q1 hwf1
        have hp : isHighPriority p = true := hq.1 p (hh ▸ List.mem_cons_self p t)
        refine ⟨h1, ?_, ?_⟩
        · simp [hq1, List.filter_cons, hp, hh, h2]
        · simp [hq1, List.filter_cons, hp, h3]
      | nil =>
        cases hl : q.lo with
        | cons p t =>
          rw [dequeue_lo q p t hh hl]
          set q1 : PriorityQueue :=
            { q with lo := t, curBytes := q.curBytes - p.sizeBytes } with hq1
          have hwf1 : PQWf q1 := by
            refine ⟨hq.1, ?_⟩
            intro x hx
            exact hq.2 x (hl ▸ List.mem_cons_of_mem p hx)
          obtain ⟨h1, h2, h3⟩ := ih q1 hwf1
          have hp : isHighPriority p = false := hq.2 p (hl ▸ List.mem_cons_self p t)
          refine ⟨h1, ?_, ?_⟩
          · simp [hq1, List.filter_cons, hp, h2]
            exact hh
          · simp [hq1, List.filter_cons, hp, hl, h3]
        | nil =>
          rw [dequeue_empty q hh hl]
          have := ih q hq
          simpa [hh, hl] using this

/-- C7: (i) with the class discipline in force, `dequeue` never returns a
low-priority packet while any high-priority packet is present — whenever a
high-priority packet is in the queue, the dequeued packet is
high-priority; and (ii) on every run from a fresh queue, the sequence of
dequeued packets of each priority class, followed by that class's
residual sub-queue, is exactly the sequence of accepted packets of that
class in arrival order (strict FIFO within each class). -/
theorem priorityQueue_strict_priority_fifo :
    (∀ q : PriorityQueue, PQWf q →
      (∃ h ∈ q.hi ++ q.lo, isHighPriority h = true) →
      ∃ p, (q.dequeue).1 = some p ∧ isHighPriority p = true) ∧
    (∀ (cap : Nat) (ops : List PQOp),
      ((PriorityQueue.run (PriorityQueue.new cap) ops).2.2).filter isHighPriority ++
          ((PriorityQueue.run (PriorityQueue.new cap) ops).1).hi =
        ((PriorityQueue.run (PriorityQueue.new cap) ops).2.1).filter isHighPriority ∧
      ((PriorityQueue.run (PriorityQueue.new cap) ops).2.2).filter
            (fun p => !isHighPriority p) ++
          ((PriorityQueue.run (PriorityQueue.new cap) ops).1).lo =
        ((PriorityQueue.run (PriorityQueue.new cap) ops).2.1).filter
            (fun p => !isHighPriority p)) := by
  constructor
  · intro q hq hex
    obtain ⟨h, hmem, hhigh⟩ := hex
    have hinhi : h ∈ q.hi := by
      rcases List.mem_append.1 hmem with hm | hm
      · exact hm
      · exact absurd (hq.2 h hm) (by simp [hhigh])
    cases hh : q.hi with
    | nil => rw [hh] at hinhi; cases hinhi
    | cons p t =>
      refine ⟨p, ?_, hq.1 p (hh ▸ List.mem_cons_self p t)⟩
      rw [dequeue_hi q p t hh]
  · intro cap ops
    have hwf : PQWf (PriorityQueue.new cap) := by
      exact ⟨fun p hp => absurd hp (List.not_mem_nil p), fun p hp => absurd hp (List.not_mem_nil p)⟩
    obtain ⟨_, h2, h3⟩ := pq_run_conservation ops (PriorityQueue.new cap) hwf
    exact ⟨by simpa [PriorityQueue.new] using h2, by simpa [PriorityQueue.new] using h3⟩

/-- C7 witness: a queue holding one data packet and one TCP ACK dequeues
the ACK first. -/
theorem priorityQueue_strict_priority_fifo_witness :
    ∃ p, (PriorityQueue.dequeue
      { maxBytes := 1000, curBytes := 164,
        hi := [{ Packet.newDynamic 2 9 64 1 0 with
                  transport := Transport.Tcp (TcpSegment.Ack 0) }],
        lo := [{ Packet.newDynamic 1 9 100 0 1 with
                  transport := Transport.Tcp (TcpSegment.Data 0 100) }] }).1
        = some p ∧ isHighPriority p = true :=
  priorityQueue_strict_priority_fifo.1 _ ⟨by decide, by decide⟩ (by decide)

/-! ## C2: event dispatch order -/

/-- `heapMinGo` returns its accumulator or a list element. -/
theorem heapMinGo_mem (l : List (Nat × Nat)) : ∀ x : Nat × Nat,
    heapMinGo x l = x ∨ heapMinGo x l ∈ l := by
  induction l with
  | nil => intro x; left; rfl
  | cons y ys ih =>
    intro x
    have hstep : heapMinGo x (y :: ys) = heapMinGo (if keyOf y < keyOf x then y else x) ys := rfl
    rw [hstep]
    by_cases hxy : keyOf y < keyOf x
    · rw [if_pos hxy]
      rcases ih y with h | h
      · right; rw [h]; exact List.mem_cons_self y ys
      · right; exact List.mem_cons_of_mem y h
    · rw [if_neg hxy]
      rcases ih x with h | h
      · left; exact h
      · right; exact List.mem_cons_of_mem y h

/-- `heapMinGo` returns a key-minimal element. -/
theorem heapMinGo_le (l : List (Nat × Nat)) : ∀ x : Nat × Nat,
    keyOf (heapMinGo x l) ≤ keyOf x ∧ ∀ e ∈ l, keyOf (heapMinGo x l) ≤ keyOf e := by
  induction l with
  | nil => intro x; exact ⟨Nat.le_refl _, by intro e he; cases he⟩
  | cons y ys ih =>
    intro x
    have hstep : heapMinGo x (y :: ys) = heapMinGo (if keyOf y < keyOf x then y else x) ys := rfl
    rw [hstep]
    by_cases hxy : keyOf y < keyOf x
    · rw [if_pos hxy]
      obtain ⟨h1, h2⟩ := ih y
      refine ⟨Nat.le_trans h1 (Nat.le_of_lt hxy), ?_⟩
      intro e he
      rcases List.mem_cons.1 he with he | he
      · rw [he]; exact h1
      · exact h2 e he
    · rw [if_neg hxy]
      obtain ⟨h1, h2⟩ := ih x
      refine ⟨h1, ?_⟩
      intro e he
      rcases List.mem_cons.1 he with he | he
      · rw [he]; exact Nat.le_trans h1 (Nat.le_of_not_lt hxy)
      · exact h2 e he

/-- A key comparison decides the lexicographic `(at, seq)` order when both
sequence numbers are in `u64` range. -/
theorem keyOf_le_cases (a b : Nat × Nat) (ha : a.2 ≤ u64Max) (hb : b.2 ≤ u64Max)
    (h : keyOf a ≤ keyOf b) : keyLt a b ∨ (a.1 = b.1 ∧ a.2 = b.2) := by
  unfold keyOf at h
  unfold keyLt
  unfold u64Max at ha hb
  omega

/-- Unfolding equation for `Simulator.exec` on a `dispatch`. -/
theorem exec_dispatch_eq (st : Simulator) (ops : List SimOp) :
    Simulator.exec st (SimOp.dispatch :: ops) =
      ((Simulator.exec (st.dispatch).1 ops).1,
       (match (st.dispatch).2 with | some k => [k] | none => []) ++
         (Simulator.exec (st.dispatch).1 ops).2) := by
  rcases hd : st.dispatch with ⟨st1, m⟩
  simp [Simulator.exec, hd]

/-- The central induction for C2: starting from a state whose queued
events are all in the future and carry distinct sequence numbers below
the counter, a trace whose schedules all respect `at ≥ now` dispatches in
strictly increasing `(at, seq)` order (continuing from an optional
previously dispatched key that precedes everything queued), and virtual
time never decreases. -/
theorem exec_chain (ops : List SimOp) : ∀ (st : Simulator) (last : Option (Nat × Nat)),
    (∀ e ∈ st.q, st.now ≤ e.1 ∧ e.2 < st.nextSeq) →
    (st.q.map Prod.snd).Nodup →
    st.nextSeq + schedCount ops ≤ u64Max →
    Simulator.legalB st ops = true →
    (∀ m, last = some m → m.1 ≤ st.now ∧ m.2 < st.nextSeq ∧ ∀ e ∈ st.q, keyLt m e) →
    List.Chain' keyLt (last.toList ++ (Simulator.exec st ops).2) ∧
    st.now ≤ (Simulator.exec st ops).1.now := by
  induction ops with
  | nil =>
    intro st last hinv hnd hcnt hleg hlast
    constructor
    · cases last with
      | none => simp [Simulator.exec]
      | some m => simp [Simulator.exec]
    · exact Nat.le_refl _
  | cons op ops ih =>
    intro st last hinv hnd hcnt hleg hlast
    cases op with
    | sched a =>
      have hcnt' : st.nextSeq + (1 + schedCount ops) ≤ u64Max := hcnt
      have hwrap : wrapAdd64 st.nextSeq 1 = st.nextSeq + 1 := by
        unfold wrapAdd64
        have : st.nextSeq + 1 < 18446744073709551616 := by unfold u64Max at hcnt'; omega
        exact Nat.mod_eq_of_lt this
      have hleg' := hleg
      unfold Simulator.legalB at hleg'
      rw [Bool.and_eq_true] at hleg'
      obtain ⟨hnowa, hlegrest⟩ := hleg'
      have hnowa' : st.now ≤ a := of_decide_eq_true hnowa
      have hinv' : ∀ e ∈ (st.schedule a).q,
          (st.schedule a).now ≤ e.1 ∧ e.2 < (st.schedule a).nextSeq := by
        intro e he
        unfold Simulator.schedule at he ⊢
        simp only at he ⊢
        rw [hwrap]
        rcases List.mem_append.1 he with h | h
        · obtain ⟨h1, h2⟩ := hinv e h
          exact ⟨h1, by omega⟩
        · rw [List.eq_of_mem_singleton h]
          exact ⟨hnowa', by omega⟩
      have hnd' : ((st.schedule a).q.map Prod.snd).Nodup := by
        unfold Simulator.schedule
        simp only [List.map_append]
        rw [List.nodup_append]
        refine ⟨hnd, List.nodup_singleton _, ?_⟩
        intro s hs
        simp only [List.mem_map] at hs
        obtain ⟨e, he, hes⟩ := hs
        have := (hinv e he).2
        simp only [List.map_cons, List.map_nil, List.mem_singleton]
        omega
      have hcnt2 : (st.schedule a).nextSeq + schedCount ops ≤ u64Max := by
        show wrapAdd64 st.nextSeq 1 + schedCount ops ≤ u64Max
        rw [hwrap]; omega
      have hlast' : ∀ m, last = some m → m.1 ≤ (st.schedule a).now ∧
          m.2 < (st.schedule a).nextSeq ∧ ∀ e ∈ (st.schedule a).q, keyLt m e := by
        intro m hm
        obtain ⟨h1, h2, h3⟩ := hlast m hm
        refine ⟨h1, ?_, ?_⟩
        · show m.2 < wrapAdd64 st.nextSeq 1
          rw [hwrap]; omega
        · intro e he
          unfold Simulator.schedule at he
          simp only at he
          rcases List.mem_append.1 he with h | h
          · exact h3 e h
          · rw [List.eq_of_mem_singleton h]
            unfold keyLt
            rcases Nat.lt_or_ge m.1 a with hlt | hge
            · left; exact hlt
            · right
              have : m.1 = a := by omega
              exact ⟨this, by simpa using h2⟩
      have := ih (st.schedule a) last hinv' hnd' hcnt2 hlegrest hlast'
      exact this
    | dispatch =>
      cases hq : st.q with
      | nil =>
        have hdisp : st.dispatch = (st, none) := by
          unfold Simulator.dispatch popMin
          rw [hq]
        have hleg' : Simulator.legalB (st.dispatch).1 ops = true := hleg
        rw [hdisp] at hleg'
        have hcnt' : st.nextSeq + schedCount ops ≤ u64Max := hcnt
        have := ih st last hinv hnd hcnt' hleg' hlast
        rw [exec_dispatch_eq, hdisp]
        simpa using this
      | cons x xs =>
        have hnseq : st.nextSeq ≤ u64Max := by omega
        set m := heapMinGo x xs with hmdef
        have hmmem : m ∈ st.q := by
          rw [hq]
          rcases heapMinGo_mem xs x with h | h
          · rw [hmdef, h]; exact List.mem_cons_self x xs
          · exact List.mem_cons_of_mem x h
        have hmle : ∀ e ∈ st.q, keyOf m ≤ keyOf e := by
          intro e he
          rw [hq] at he
          obtain ⟨h1, h2⟩ := heapMinGo_le xs x
          rcases List.mem_cons.1 he with he | he
          · exact he ▸ h1
          · exact h2 e he
        have hdisp : st.dispatch = ({ st with now := m.1, q := st.q.erase m }, some m) := by
          unfold Simulator.dispatch popMin
          rw [hq]
        have hqnodup : st.q.Nodup := List.Nodup.of_map _ hnd
        have hstrict : ∀ e ∈ st.q.erase m, keyLt m e := by
          intro e he
          have hemem : e ∈ st.q := List.mem_of_mem_erase he
          have hene : e ≠ m := (List.Nodup.mem_erase_iff hqnodup).1 he |>.1
          have hb1 : m.2 ≤ u64Max := by
            have := (hinv m hmmem).2; omega
          have hb2 : e.2 ≤ u64Max := by
            have := (hinv e hemem).2; omega
          rcases keyOf_le_cases m e hb1 hb2 (hmle e hemem) with h | h
          · exact h
          · exfalso
            have : m = e := List.inj_on_of_nodup_map hnd hmmem hemem h.2
            exact hene this.symm
        have hinv2 : ∀ e ∈ ({ st with now := m.1, q := st.q.erase m } : Simulator).q,
            m.1 ≤ e.1 ∧ e.2 < st.nextSeq := by
          intro e he
          have hemem : e ∈ st.q := List.mem_of_mem_erase he
          refine ⟨?_, (hinv e hemem).2⟩
          rcases hstrict e he with h | ⟨h, _⟩
          · exact Nat.le_of_lt h
          · exact Nat.le_of_eq h
        have hnd2 : ((st.q.erase m).map Prod.snd).Nodup :=
          List.Nodup.sublist (List.Sublist.map _ (List.erase_sublist m st.q)) hnd
        have hleg2 : Simulator.legalB ({ st with now := m.1, q := st.q.erase m } :
            Simulator) ops = true := by
          have : Simulator.legalB (st.dispatch).1 ops = true := hleg
          rw [hdisp] at this
          exact this
        have hlast2 : ∀ k, (some m : Option (Nat × Nat)) = some k →
            k.1 ≤ m.1 ∧ k.2 < st.nextSeq ∧ ∀ e ∈ st.q.erase m, keyLt k e := by
          intro k hk
          cases hk
          exact ⟨Nat.le_refl _, (hinv m hmmem).2, hstrict⟩
        have hrec := ih { st with now := m.1, q := st.q.erase m } (some m)
          hinv2 hnd2 (by simpa using hcnt) hleg2 hlast2
        rw [exec_dispatch_eq, hdisp]
        constructor
        · have hchain2 : List.Chain' keyLt
              (m :: (Simulator.exec { st with now := m.1, q := st.q.erase m } ops).2) := by
            simpa using hrec.1
          cases last with
          | none => simpa using hchain2
          | some lv =>
            have hlv := hlast lv rfl
            have hlm : keyLt lv m := hlv.2.2 m hmmem
            simpa using List.chain'_cons.2 ⟨hlm, hchain2⟩
        · have h1 : st.now ≤ m.1 := (hinv m hmmem).1
          have h2 : m.1 ≤ (Simulator.exec
              { st with now := m.1, q := st.q.erase m } ops).1.now := hrec.2
          exact Nat.le_trans h1 h2

/-- C2, counterexample. An event at `t = 10` that schedules a follow-up
at `t = 5` (strictly in the past) is *not* treated as "same time as now":
the follow-up is dispatched after it with `now` rewound to 5, so the
dispatch log `[(10, 0), (5, 1)]` is not monotone in `(at, seq)` and the
second event executes at an earlier `now` than its predecessor. -/
theorem simulator_past_schedule_rewinds_now :
    (Simulator.exec Simulator.init
       [SimOp.sched 10, SimOp.dispatch, SimOp.sched 5, SimOp.dispatch]).2
      = [(10, 0), (5, 1)] ∧
    ¬ List.Chain' keyLt [((10 : Nat), (0 : Nat)), ((5 : Nat), (1 : Nat))] ∧
    (Simulator.exec Simulator.init
       [SimOp.sched 10, SimOp.dispatch, SimOp.sched 5, SimOp.dispatch]).1.now = 5 := by
  refine ⟨by decide, ?_, by decide⟩
  intro h
  have h1 := (List.chain'_cons.1 h).1
  unfold keyLt at h1
  omega

/-- C2, amended: as long as every `schedule(at, _)` performed during the
run respects the documented contract `at ≥ now` — which the source never
enforces for schedules strictly into the past — events are dispatched in
strictly increasing `(at, seq)` order: virtual time is nondecreasing and
ties at equal `at` are broken FIFO by scheduling order. (An event body is
abstracted by the schedule calls it makes, interleaved after its
dispatch; `schedCount ops ≤ u64::MAX` rules out wrap-around of the
sequence counter.) -/
theorem simulator_dispatch_monotone (ops : List SimOp)
    (hLegal : Simulator.legalB Simulator.init ops = true)
    (hCount : schedCount ops ≤ u64Max) :
    List.Chain' keyLt (Simulator.exec Simulator.init ops).2 := by
  have := exec_chain ops Simulator.init none
    (by intro e he; cases he)
    (by simp [Simulator.init])
    (by simpa [Simulator.init] using hCount)
    hLegal
    (by intro m hm; cases hm)
  simpa using this.1

/-- C2 witness: a legal six-operation trace dispatches in order. -/
theorem simulator_dispatch_monotone_witness :
    List.Chain' keyLt (Simulator.exec Simulator.init
      [SimOp.sched 10, SimOp.sched 5, SimOp.dispatch, SimOp.sched 10,
       SimOp.dispatch, SimOp.dispatch]).2 :=
  simulator_dispatch_monotone _ (by decide) (by decide)

/-! ## C3: RTT sampling and the RTO estimator -/

/-- Closed form of the sampling loop: it yields `now − sent_at` of the
*last* non-retransmitted entry of the covered prefix (the loop overwrites
its candidate as it walks forward), or the accumulator if there is none. -/
theorem rttSampleLoop_eq (now ack : Nat) (l : List (Nat × SentSeg)) : ∀ acc,
    rttSampleLoop now ack l acc =
      (match ((l.takeWhile (fun e => satAdd64 e.1 e.2.len ≤ ack)).filter
          (fun e => !e.2.retransmitted)).getLast? with
        | some e => some (satSub now e.2.sentAt)
        | none => acc) := by
  induction l with
  | nil => intro acc; simp [rttSampleLoop]
  | cons p rest ih =>
    intro acc
    rcases p with ⟨s, seg⟩
    have hL : rttSampleLoop now ack ((s, seg) :: rest) acc =
        if satAdd64 s seg.len ≤ ack then
          rttSampleLoop now ack rest
            (if seg.retransmitted then acc else some (satSub now seg.sentAt))
        else acc := rfl
    by_cases hc : satAdd64 s seg.len ≤ ack
    · rw [hL, if_pos hc, ih, List.takeWhile_cons]
      have hcd : (decide (satAdd64 s seg.len ≤ ack)) = true := decide_eq_true hc
      rw [hcd, if_pos rfl, List.filter_cons]
      cases hr : seg.retransmitted with
      | true =>
        rw [Bool.not_true, if_neg Bool.false_ne_true, if_pos rfl]
      | false =>
        rw [Bool.not_false, if_pos rfl, if_neg Bool.false_ne_true, List.getLast?_cons]
        cases hg : ((rest.takeWhile (fun e => satAdd64 e.1 e.2.len ≤ ack)).filter
            (fun e => !e.2.retransmitted)).getLast? with
        | none => rfl
        | some e => rfl
    · rw [hL, if_neg hc, List.takeWhile_cons]
      have hcd : (decide (satAdd64 s seg.len ≤ ack)) = false := decide_eq_false hc
      rw [hcd, if_neg Bool.false_ne_true, List.filter_nil, List.getLast?_nil]

/-- In a list pairwise-sorted by key, the last element has the largest key. -/
theorem pairwise_key_le_getLast (l : List (Nat × SentSeg))
    (hp : l.Pairwise (fun a b => a.1 ≤ b.1)) :
    ∀ e, l.getLast? = some e → ∀ x ∈ l, x.1 ≤ e.1 := by
  induction l with
  | nil => intro e he; cases he
  | cons a t ih =>
    intro e he x hx
    cases ht : t with
    | nil =>
      rw [ht] at he
      have : a = e := by simpa using he
      rcases List.mem_cons.1 hx with hx | hx
      · rw [hx, this]
      · rw [ht] at hx; cases hx
    | cons b t2 =>
      have hne : t ≠ [] := by rw [ht]; exact List.cons_ne_nil b t2
      have hlast : t.getLast? = some e := by
        rw [List.getLast?_cons] at he
        cases hg : t.getLast? with
        | none =>
          exfalso
          rw [List.getLast?_eq_none_iff] at hg
          exact hne hg
        | some e2 =>
          rw [hg] at he
          simp only [Option.getD_some] at he
          exact he
      have hemem : e ∈ t := List.mem_of_mem_getLast? (by simp [hlast])
      rcases List.mem_cons.1 hx with hx | hx
      · rw [hx]
        exact (List.pairwise_cons.1 hp).1 e hemem
      · exact ih (List.pairwise_cons.1 hp).2 e hlast x hx

/-- C3, counterexample. `inflight = {0 ↦ (len 100, sent 10, fresh),
100 ↦ (len 100, sent 20, fresh)}`, cumulative ACK 200 at `now = 50`: the
spec's rule ("oldest newly-covered non-retransmitted segment") samples
`50 − 10 = 40`, but the source loop overwrites its candidate while
walking the covered prefix in ascending order and feeds `50 − 20 = 30`
from the newest covered segment. -/
theorem rtt_sample_not_oldest :
    rttSampleLoop 50 200 [(0, ⟨100, 10, false⟩), (100, ⟨100, 20, false⟩)] none = some 30 ∧
    rttSampleOldestSpec 50 200 [(0, ⟨100, 10, false⟩), (100, ⟨100, 20, false⟩)] = some 40 ∧
    (30 : Nat) ≠ 40 := by
  refine ⟨by decide, by decide, by decide⟩

/-- C3, amended: on a new cumulative ACK the RTT sample is taken from the
*newest* (highest-sequence) newly-covered segment whose retransmitted
flag is false; no sample is taken when every newly-covered segment was
retransmitted (Karn's rule); and the estimator updates SRTT/RTTVAR with
gains 1/8 and 1/4 in integer arithmetic and clamps the resulting RTO to
`[min_rto, max_rto]`. The inflight list is sorted with disjoint segment
ranges, as the sender maintains it. -/
theorem rtt_sample_newest_karn_clamp (now ack v : Nat) (l : List (Nat × SentSeg))
    (hchain : List.Chain' (fun a b : Nat × SentSeg => a.1 + a.2.len ≤ b.1) l) :
    (rttSampleLoop now ack l none = some v →
      ∃ e ∈ l.takeWhile (fun e => satAdd64 e.1 e.2.len ≤ ack),
        e.2.retransmitted = false ∧ v = now - e.2.sentAt ∧
        ∀ e' ∈ l.takeWhile (fun e => satAdd64 e.1 e.2.len ≤ ack),
          e'.2.retransmitted = false → e'.1 ≤ e.1) ∧
    ((∀ e ∈ l.takeWhile (fun e => satAdd64 e.1 e.2.len ≤ ack),
        e.2.retransmitted = true) → rttSampleLoop now ack l none = none) ∧
    (∀ (c : TcpConn) (sample : Nat), sample ≤ u64Max →
      (c.srtt = none → (c.updateRtoWithSample sample).srtt = some sample ∧
        (c.updateRtoWithSample sample).rttvar = sample / 2) ∧
      (∀ s0, c.srtt = some s0 → 7 * s0 ≤ u64Max → 3 * c.rttvar ≤ u64Max →
        (c.updateRtoWithSample sample).srtt = some (7 * s0 / 8 + sample / 8) ∧
        (c.updateRtoWithSample sample).rttvar =
          c.rttvar * 3 / 4 + (if s0 ≤ sample then sample - s0 else s0 - sample) / 4) ∧
      (c.cfg.minRto ≤ c.cfg.maxRto →
        c.cfg.minRto ≤ (c.updateRtoWithSample sample).rto ∧
        (c.updateRtoWithSample sample).rto ≤ c.cfg.maxRto)) := by
  have hpair : l.Pairwise (fun a b : Nat × SentSeg => a.1 ≤ b.1) := by
    letI : IsTrans (Nat × SentSeg) (fun a b => a.1 + a.2.len ≤ b.1) :=
      ⟨fun a b c hab hbc => by omega⟩
    have := List.chain'_iff_pairwise.1 hchain
    exact this.imp (fun h => by omega)
  refine ⟨?_, ?_, ?_⟩
  · intro hv
    rw [rttSampleLoop_eq] at hv
    set cov := l.takeWhile (fun e => satAdd64 e.1 e.2.len ≤ ack) with hcov
    cases hg : (cov.filter (fun e => !e.2.retransmitted)).getLast? with
    | none => rw [hg] at hv; cases hv
    | some e =>
      rw [hg] at hv
      have hveq : v = satSub now e.2.sentAt := by
        simpa using hv.symm
      have hef : e ∈ cov.filter (fun e => !e.2.retransmitted) :=
        List.mem_of_mem_getLast? (by simp [hg])
      have hecov : e ∈ cov := (List.mem_filter.1 hef).1
      have heretr : e.2.retransmitted = false := by
        have := (List.mem_filter.1 hef).2
        simpa using this
      refine ⟨e, hecov, heretr, hveq, ?_⟩
      intro e' he' hr'
      have hcovp : cov.Pairwise (fun a b : Nat × SentSeg => a.1 ≤ b.1) :=
        List.Pairwise.sublist (List.takeWhile_sublist _) hpair
      have hfp : (cov.filter (fun e => !e.2.retransmitted)).Pairwise
          (fun a b : Nat × SentSeg => a.1 ≤ b.1) := List.Pairwise.filter _ hcovp
      have he'f : e' ∈ cov.filter (fun e => !e.2.retransmitted) :=
        List.mem_filter.2 ⟨he', by simp [hr']⟩
      exact pairwise_key_le_getLast _ hfp e hg e' he'f
  · intro hall
    rw [rttSampleLoop_eq]
    cases hg : ((l.takeWhile (fun e => satAdd64 e.1 e.2.len ≤ ack)).filter
        (fun e => !e.2.retransmitted)).getLast? with
    | none => rfl
    | some e =>
      exfalso
      have hef : e ∈ (l.takeWhile (fun e => satAdd64 e.1 e.2.len ≤ ack)).filter
          (fun e => !e.2.retransmitted) :=
        List.mem_of_mem_getLast? (by simp [Option.mem_def, hg])
      have hecov := (List.mem_filter.1 hef).1
      have hret := (List.mem_filter.1 hef).2
      have := hall e hecov
      simp_all
  · intro c sample hsample
    refine ⟨?_, ?_, ?_⟩
    · intro hnone
      unfold TcpConn.updateRtoWithSample
      rw [hnone]
      exact ⟨rfl, rfl⟩
    · intro s0 hs0 h7 h3
      unfold TcpConn.updateRtoWithSample
      rw [hs0]
      have h1 : wrapMul64 s0 7 = 7 * s0 := by
        unfold wrapMul64
        unfold u64Max at h7
        rw [Nat.mod_eq_of_lt (by omega)]
        ring
      have h2 : wrapMul64 c.rttvar 3 = 3 * c.rttvar := by
        unfold wrapMul64
        unfold u64Max at h3
        rw [Nat.mod_eq_of_lt (by omega)]
        ring
      constructor
      · show some (satAdd64 (wrapMul64 s0 7 / 8) (sample / 8)) = some (7 * s0 / 8 + sample / 8)
        apply congrArg
        rw [h1]
        unfold satAdd64
        unfold u64Max at h7 hsample ⊢
        omega
      · show satAdd64 (wrapMul64 c.rttvar 3 / 4)
            ((if s0 ≤ sample then sample - s0 else s0 - sample) / 4) =
          c.rttvar * 3 / 4 + (if s0 ≤ sample then sample - s0 else s0 - sample) / 4
        rw [h2]
        unfold satAdd64
        have hdle : (if s0 ≤ sample then sample - s0 else s0 - sample) ≤ s0 + sample := by
          split <;> omega
        unfold u64Max at h3 hsample h7 ⊢
        have hmc : 3 * c.rttvar / 4 = c.rttvar * 3 / 4 := by rw [Nat.mul_comm]
        rw [hmc]
        omega
    · intro hminmax
      unfold TcpConn.updateRtoWithSample
      cases hs : c.srtt with
      | none =>
        refine ⟨?_, ?_⟩
        · exact Nat.le_min.2 ⟨Nat.le_max_right _ _, hminmax⟩
        · exact Nat.min_le_right _ _
      | some s0 =>
        refine ⟨?_, ?_⟩
        · exact Nat.le_min.2 ⟨Nat.le_max_right _ _, hminmax⟩
        · exact Nat.min_le_right _ _

/-- C3 witness: the amended statement on a concrete two-segment inflight
list, a covering ACK and a fresh estimator. -/
theorem rtt_sample_newest_karn_clamp_witness :
    ∃ e ∈ [((0 : Nat), (⟨100, 10, false⟩ : SentSeg)), (100, ⟨100, 20, false⟩)].takeWhile
        (fun e => satAdd64 e.1 e.2.len ≤ 200),
      e.2.retransmitted = false ∧ (30 : Nat) = 50 - e.2.sentAt ∧
      ∀ e' ∈ [((0 : Nat), (⟨100, 10, false⟩ : SentSeg)), (100, ⟨100, 20, false⟩)].takeWhile
          (fun e => satAdd64 e.1 e.2.len ≤ 200),
        e'.2.retransmitted = false → e'.1 ≤ e.1 :=
  (rtt_sample_newest_karn_clamp 50 200 30
      [(0, ⟨100, 10, false⟩), (100, ⟨100, 20, false⟩)]
      (by simp)).1 (by decide)

/-! ## Field-preservation lemmas for the TCP/DCTCP send path -/

/-- `sendLoop` only touches `next_seq` and `inflight`. -/
theorem tcp_sendLoop_fields (now : Nat) : ∀ (fuel : Nat) (c : TcpConn) (avail : Nat),
    (TcpConn.sendLoop now fuel c avail).1.cwndBytes = c.cwndBytes ∧
    (TcpConn.sendLoop now fuel c avail).1.ssthreshBytes = c.ssthreshBytes ∧
    (TcpConn.sendLoop now fuel c avail).1.cfg = c.cfg ∧
    (TcpConn.sendLoop now fuel c avail).1.doneAt = c.doneAt ∧
    (TcpConn.sendLoop now fuel c avail).1.lastAcked = c.lastAcked ∧
    (TcpConn.sendLoop now fuel c avail).1.totalBytes = c.totalBytes := by
  intro fuel
  induction fuel with
  | zero => intro c avail; exact ⟨rfl, rfl, rfl, rfl, rfl, rfl⟩
  | succ fuel ih =>
    intro c avail
    have hEq : TcpConn.sendLoop now (fuel + 1) c avail =
        (if avail > 0 ∧ c.nextSeq < c.totalBytes then
          let remain := c.totalBytes - c.nextSeq
          let len := min (min c.cfg.mss remain) avail
          if len = 0 then (c, [])
          else
            let seq := c.nextSeq
            let c2 := { c with
              nextSeq := satAdd64 c.nextSeq len
              inflight := inflightInsert seq
                { len := len, sentAt := now, retransmitted := false } c.inflight }
            let r := TcpConn.sendLoop now fuel c2 (satSub avail len)
            (r.1, Emit.data seq len false :: r.2)
        else (c, [])) := rfl
    rw [hEq]
    by_cases h1 : avail > 0 ∧ c.nextSeq < c.totalBytes
    · rw [if_pos h1]
      by_cases h2 : min (min c.cfg.mss (c.totalBytes - c.nextSeq)) avail = 0
      · rw [if_pos h2]
        exact ⟨rfl, rfl, rfl, rfl, rfl, rfl⟩
      · rw [if_neg h2]
        exact ih _ _
    · rw [if_neg h1]
      exact ⟨rfl, rfl, rfl, rfl, rfl, rfl⟩

/-- `ensure_rto` only touches the timer deadline and token. -/
theorem tcp_ensureRto_fields (c : TcpConn) (now : Nat) :
    (c.ensureRto now).cwndBytes = c.cwndBytes ∧
    (c.ensureRto now).ssthreshBytes = c.ssthreshBytes ∧
    (c.ensureRto now).cfg = c.cfg ∧
    (c.ensureRto now).doneAt = c.doneAt ∧
    (c.ensureRto now).lastAcked = c.lastAcked ∧
    (c.ensureRto now).totalBytes = c.totalBytes := by
  unfold TcpConn.ensureRto TcpConn.scheduleRto
  split
  · exact ⟨rfl, rfl, rfl, rfl, rfl, rfl⟩
  · split
    · exact ⟨rfl, rfl, rfl, rfl, rfl, rfl⟩
    · exact ⟨rfl, rfl, rfl, rfl, rfl, rfl⟩

/-- `restart_rto` only touches the timer deadline and token. -/
theorem tcp_restartRto_fields (c : TcpConn) (now : Nat) :
    (c.restartRto now).cwndBytes = c.cwndBytes ∧
    (c.restartRto now).ssthreshBytes = c.ssthreshBytes ∧
    (c.restartRto now).cfg = c.cfg ∧
    (c.restartRto now).doneAt = c.doneAt ∧
    (c.restartRto now).lastAcked = c.lastAcked ∧
    (c.restartRto now).totalBytes = c.totalBytes := by
  unfold TcpConn.restartRto TcpConn.scheduleRto
  split
  · exact ⟨rfl, rfl, rfl, rfl, rfl, rfl⟩
  · exact ⟨rfl, rfl, rfl, rfl, rfl, rfl⟩

/-- `send_data_if_possible` never changes the windows, the configuration,
the completion mark, or the acknowledgement state. -/
theorem tcp_sendData_fields (c : TcpConn) (now : Nat) :
    (c.sendDataIfPossible now).1.cwndBytes = c.cwndBytes ∧
    (c.sendDataIfPossible now).1.ssthreshBytes = c.ssthreshBytes ∧
    (c.sendDataIfPossible now).1.cfg = c.cfg ∧
    (c.sendDataIfPossible now).1.doneAt = c.doneAt ∧
    (c.sendDataIfPossible now).1.lastAcked = c.lastAcked ∧
    (c.sendDataIfPossible now).1.totalBytes = c.totalBytes := by
  unfold TcpConn.sendDataIfPossible
  by_cases h1 : c.doneAt.isSome
  · rw [if_pos h1]
    exact ⟨rfl, rfl, rfl, rfl, rfl, rfl⟩
  · rw [if_neg h1]
    by_cases h2 : c.senderState ≠ SenderState.Established
    · rw [if_pos h2]
      by_cases h3 : c.synSentAt = none
      · rw [if_pos h3]
        exact tcp_ensureRto_fields { c with synSentAt := some now } now
      · rw [if_neg h3]
        exact tcp_ensureRto_fields c now
    · rw [if_neg h2]
      have hl := tcp_sendLoop_fields now (c.totalBytes - c.nextSeq + 1) c
        (satSub c.effectiveCwnd c.inflightBytes)
      have he := tcp_ensureRto_fields
        (TcpConn.sendLoop now (c.totalBytes - c.nextSeq + 1) c
          (satSub c.effectiveCwnd c.inflightBytes)).1 now
      exact ⟨he.1.trans hl.1, he.2.1.trans hl.2.1, he.2.2.1.trans hl.2.2.1,
        he.2.2.2.1.trans hl.2.2.2.1, he.2.2.2.2.1.trans hl.2.2.2.2.1,
        he.2.2.2.2.2.trans hl.2.2.2.2.2⟩

/-- DCTCP `sendLoop` only touches `next_seq` and `inflight`. -/
theorem dctcp_sendLoop_fields : ∀ (fuel : Nat) (c : DctcpConn) (avail : Nat),
    (DctcpConn.sendLoop fuel c avail).1.cwndBytes = c.cwndBytes ∧
    (DctcpConn.sendLoop fuel c avail).1.ssthreshBytes = c.ssthreshBytes ∧
    (DctcpConn.sendLoop fuel c avail).1.cfg = c.cfg ∧
    (DctcpConn.sendLoop fuel c avail).1.doneAt = c.doneAt ∧
    (DctcpConn.sendLoop fuel c avail).1.lastAcked = c.lastAcked ∧
    (DctcpConn.sendLoop fuel c avail).1.totalBytes = c.totalBytes := by
  intro fuel
  induction fuel with
  | zero => intro c avail; exact ⟨rfl, rfl, rfl, rfl, rfl, rfl⟩
  | succ fuel ih =>
    intro c avail
    have hEq : DctcpConn.sendLoop (fuel + 1) c avail =
        (if avail > 0 ∧ c.nextSeq < c.totalBytes then
          let remain := c.totalBytes - c.nextSeq
          let len := min (min c.cfg.mss remain) avail
          if len = 0 then (c, [])
          else
            let seq := c.nextSeq
            let c2 := { c with
              nextSeq := satAdd64 c.nextSeq len
              inflight := dinflightInsert seq len c.inflight }
            let r := DctcpConn.sendLoop fuel c2 (satSub avail len)
            (r.1, Emit.data seq len false :: r.2)
        else (c, [])) := rfl
    rw [hEq]
    by_cases h1 : avail > 0 ∧ c.nextSeq < c.totalBytes
    · rw [if_pos h1]
      by_cases h2 : min (min c.cfg.mss (c.totalBytes - c.nextSeq)) avail = 0
      · rw [if_pos h2]
        exact ⟨rfl, rfl, rfl, rfl, rfl, rfl⟩
      · rw [if_neg h2]
        exact ih _ _
    · rw [if_neg h1]
      exact ⟨rfl, rfl, rfl, rfl, rfl, rfl⟩

/-- DCTCP `send_data_if_possible` preserves the same fields. -/
theorem dctcp_sendData_fields (c : DctcpConn) :
    (c.sendDataIfPossible).1.cwndBytes = c.cwndBytes ∧
    (c.sendDataIfPossible).1.ssthreshBytes = c.ssthreshBytes ∧
    (c.sendDataIfPossible).1.cfg = c.cfg ∧
    (c.sendDataIfPossible).1.doneAt = c.doneAt ∧
    (c.sendDataIfPossible).1.lastAcked = c.lastAcked ∧
    (c.sendDataIfPossible).1.totalBytes = c.totalBytes := by
  unfold DctcpConn.sendDataIfPossible
  by_cases h1 : c.doneAt.isSome
  · rw [if_pos h1]
    exact ⟨rfl, rfl, rfl, rfl, rfl, rfl⟩
  · rw [if_neg h1]
    exact dctcp_sendLoop_fields _ c _

/-- The estimator update only touches `srtt`, `rttvar` and `rto`. -/
theorem updateRtoWithSample_fields (c : TcpConn) (x : Nat) :
    (c.updateRtoWithSample x).cwndBytes = c.cwndBytes ∧
    (c.updateRtoWithSample x).ssthreshBytes = c.ssthreshBytes ∧
    (c.updateRtoWithSample x).cfg = c.cfg ∧
    (c.updateRtoWithSample x).doneAt = c.doneAt ∧
    (c.updateRtoWithSample x).lastAcked = c.lastAcked ∧
    (c.updateRtoWithSample x).totalBytes = c.totalBytes ∧
    (c.updateRtoWithSample x).inFastRecovery = c.inFastRecovery ∧
    (c.updateRtoWithSample x).recover = c.recover ∧
    (c.updateRtoWithSample x).nextSeq = c.nextSeq ∧
    (c.updateRtoWithSample x).inflight = c.inflight := by
  unfold TcpConn.updateRtoWithSample
  cases c.srtt
  · exact ⟨rfl, rfl, rfl, rfl, rfl, rfl, rfl, rfl, rfl, rfl⟩
  · exact ⟨rfl, rfl, rfl, rfl, rfl, rfl, rfl, rfl, rfl, rfl⟩


/-! ## C6: completion mark and done callback -/

/-- Projection of tcp_sendData_fields. -/
theorem tcp_sendData_doneAt (c : TcpConn) (now : Nat) :
    (c.sendDataIfPossible now).1.doneAt = c.doneAt := (tcp_sendData_fields c now).2.2.2.1

theorem tcp_restartRto_doneAt (c : TcpConn) (now : Nat) :
    (c.restartRto now).doneAt = c.doneAt := (tcp_restartRto_fields c now).2.2.2.1

/-- fast_retransmit only marks a segment retransmitted and emits it. -/
theorem tcp_fastRetransmit_fields (c : TcpConn) (now : Nat) :
    (c.fastRetransmit now).1.doneAt = c.doneAt ∧
    (c.fastRetransmit now).1.lastAcked = c.lastAcked ∧
    (c.fastRetransmit now).1.totalBytes = c.totalBytes ∧
    (c.fastRetransmit now).1.cfg = c.cfg ∧
    (c.fastRetransmit now).1.cwndBytes = c.cwndBytes ∧
    (c.fastRetransmit now).1.ssthreshBytes = c.ssthreshBytes ∧
    (c.fastRetransmit now).1.nextSeq = c.nextSeq := by
  unfold TcpConn.fastRetransmit
  cases c.earliestUnackedSeq <;> simp

theorem tcp_fastRetransmit_doneAt (c : TcpConn) (now : Nat) :
    (c.fastRetransmit now).1.doneAt = c.doneAt := (tcp_fastRetransmit_fields c now).1

set_option maxHeartbeats 1000000 in
/-- The new-ACK stage sets last_acked to the ACK and never touches the
completion mark, the total byte count, the configuration or ssthresh. -/
theorem tcp_onAckNewConn_fields (c : TcpConn) (ack now : Nat) :
    (c.onAckNewConn ack now).1.doneAt = c.doneAt ∧
    (c.onAckNewConn ack now).1.lastAcked = ack ∧
    (c.onAckNewConn ack now).1.totalBytes = c.totalBytes ∧
    (c.onAckNewConn ack now).1.cfg = c.cfg ∧
    (c.onAckNewConn ack now).1.ssthreshBytes = c.ssthreshBytes := by
  unfold TcpConn.onAckNewConn
  cases hs : rttSampleLoop now ack c.inflight none with
  | none =>
    simp only []
    split
    · split
      · simp
      · split <;> simp
    · split <;> simp
  | some v =>
    obtain ⟨hcw, hss, hcfg, hdo, hla, hto, hif, hre, hns, hin⟩ := updateRtoWithSample_fields c v
    simp only []
    split
    · split
      · simp [hdo, hto, hcfg, hss]
      · split <;> simp [hdo, hto, hcfg, hss]
    · split <;> simp [hdo, hto, hcfg, hss]

set_option maxHeartbeats 1000000 in
/-- Per-step characterization of completion for TCP: done_at is set (to
some now), the callback entry removed, and the callback fired iff the
ACK advances past last_acked, covers total_bytes, and the connection was
not yet done; otherwise all three are unchanged and nothing fires. -/
theorem tcp_onAck_done_char (c : TcpConn) (cb : Bool) (ack now : Nat) :
    ((c.onAck cb ack now).conn.doneAt, (c.onAck cb ack now).cbPresent,
      (c.onAck cb ack now).fired) =
      (if ack > c.lastAcked ∧ ack ≥ c.totalBytes ∧ c.doneAt = none
       then (some now, false, cb) else (c.doneAt, cb, false)) := by
  obtain ⟨hdo, hla, hto, hcfg, hss⟩ := tcp_onAckNewConn_fields c ack now
  unfold TcpConn.onAck
  by_cases hgt : ack > c.lastAcked
  · by_cases hdone : ack ≥ c.totalBytes ∧ c.doneAt = none
    · simp [hgt, hla, hto, hdo, hdone]
    · have hcond2 : ¬ (c.totalBytes ≤ ack ∧ c.doneAt = none) := fun h => hdone ⟨h.1, h.2⟩
      simp [hgt, hla, hto, hdo, hcond2, tcp_sendData_doneAt, tcp_restartRto_doneAt]
  · by_cases heq : ack = c.lastAcked
    · subst heq
      have hnc : ¬ (c.lastAcked > c.lastAcked ∧ c.lastAcked ≥ c.totalBytes ∧
          c.doneAt = none) := fun h => hgt h.1
      rw [if_neg hgt, if_pos rfl, if_neg hnc]
      split
      · simp [tcp_sendData_doneAt]
      · simp only []
        split
        · split <;> simp [tcp_sendData_doneAt, tcp_fastRetransmit_doneAt]
        · split <;> simp [tcp_sendData_doneAt]
    · have hnc : ¬ (ack > c.lastAcked ∧ ack ≥ c.totalBytes ∧ c.doneAt = none) := by
        intro h; exact hgt h.1
      simp [hgt, heq, hnc]

theorem dctcp_sendData_doneAt (c : DctcpConn) :
    (c.sendDataIfPossible).1.doneAt = c.doneAt := (dctcp_sendData_fields c).2.2.2.1

set_option maxHeartbeats 1000000 in
/-- DCTCP new-ACK stage: same field-preservation facts. -/
theorem dctcp_onAckNewConn_fields (c : DctcpConn) (ack : Nat) (e : Bool) (fc : Nat) :
    (c.onAckNewConn ack e fc).doneAt = c.doneAt ∧
    (c.onAckNewConn ack e fc).lastAcked = ack ∧
    (c.onAckNewConn ack e fc).totalBytes = c.totalBytes ∧
    (c.onAckNewConn ack e fc).cfg = c.cfg := by
  unfold DctcpConn.onAckNewConn
  simp only []
  split <;> split <;> (try split) <;> (try split) <;> simp

set_option maxHeartbeats 1000000 in
/-- Per-step characterization of completion for DCTCP. -/
theorem dctcp_onAck_done_char (c : DctcpConn) (cb : Bool) (ack : Nat) (e : Bool)
    (now fc : Nat) :
    ((c.onAck cb ack e now fc).conn.doneAt, (c.onAck cb ack e now fc).cbPresent,
      (c.onAck cb ack e now fc).fired) =
      (if ack > c.lastAcked ∧ ack ≥ c.totalBytes ∧ c.doneAt = none
       then (some now, false, cb) else (c.doneAt, cb, false)) := by
  obtain ⟨hdo, hla, hto, hcfg⟩ := dctcp_onAckNewConn_fields c ack e fc
  unfold DctcpConn.onAck
  by_cases hgt : ack > c.lastAcked
  · by_cases hdone : ack ≥ c.totalBytes ∧ c.doneAt = none
    · simp [hgt, hla, hto, hdo, hdone]
    · have hcond2 : ¬ (c.totalBytes ≤ ack ∧ c.doneAt = none) := fun h => hdone ⟨h.1, h.2⟩
      simp [hgt, hla, hto, hdo, hcond2, dctcp_sendData_doneAt]
  · by_cases heq : ack = c.lastAcked
    · subst heq
      have hnc : ¬ (c.lastAcked > c.lastAcked ∧ c.lastAcked ≥ c.totalBytes ∧
          c.doneAt = none) := fun h => hgt h.1
      rw [if_neg hgt, if_pos rfl, if_neg hnc]
      simp only []
      split
      · split <;> simp
      · split <;> simp [dctcp_sendData_doneAt]
    · have hnc : ¬ (ack > c.lastAcked ∧ ack ≥ c.totalBytes ∧ c.doneAt = none) := by
        intro h; exact hgt h.1
      simp [hgt, heq, hnc]

/-- Once the callback entry is gone it never comes back, and no further
ACK can fire it. -/
theorem tcp_runAcks_cb_false : ∀ (l : List (Nat × Nat)) (c : TcpConn),
    (TcpConn.runAcks (c, false) l).1.2 = false ∧ (TcpConn.runAcks (c, false) l).2 = 0 := by
  intro l
  induction l with
  | nil => intro c; exact ⟨rfl, rfl⟩
  | cons p rest ih =>
    intro c
    obtain ⟨ack, now⟩ := p
    have h := tcp_onAck_done_char c false ack now
    have hcb : (c.onAck false ack now).cbPresent = false := by
      by_cases hc : ack > c.lastAcked ∧ ack ≥ c.totalBytes ∧ c.doneAt = none
      · rw [if_pos hc] at h; exact (Prod.ext_iff.mp (Prod.ext_iff.mp h).2).1
      · rw [if_neg hc] at h; exact (Prod.ext_iff.mp (Prod.ext_iff.mp h).2).1
    have hfi : (c.onAck false ack now).fired = false := by
      by_cases hc : ack > c.lastAcked ∧ ack ≥ c.totalBytes ∧ c.doneAt = none
      · rw [if_pos hc] at h; exact (Prod.ext_iff.mp (Prod.ext_iff.mp h).2).2
      · rw [if_neg hc] at h; exact (Prod.ext_iff.mp (Prod.ext_iff.mp h).2).2
    have hEq : TcpConn.runAcks (c, false) ((ack, now) :: rest) =
        (let r := c.onAck false ack now
         let s := TcpConn.runAcks (r.conn, r.cbPresent) rest
         (s.1, (if r.fired then 1 else 0) + s.2)) := by
      simp only [TcpConn.runAcks]
    rw [hEq]
    simp only [hcb, hfi]
    obtain ⟨h1, h2⟩ := ih (c.onAck false ack now).conn
    simp [h1, h2]

/-- Over any ACK sequence the TCP done callback fires at most once. -/
theorem tcp_runAcks_fires_le_one : ∀ (l : List (Nat × Nat)) (c : TcpConn) (cb : Bool),
    (TcpConn.runAcks (c, cb) l).2 ≤ 1 := by
  intro l
  induction l with
  | nil => intro c cb; exact Nat.zero_le 1
  | cons p rest ih =>
    intro c cb
    obtain ⟨ack, now⟩ := p
    have h := tcp_onAck_done_char c cb ack now
    have hEq : TcpConn.runAcks (c, cb) ((ack, now) :: rest) =
        (let r := c.onAck cb ack now
         let s := TcpConn.runAcks (r.conn, r.cbPresent) rest
         (s.1, (if r.fired then 1 else 0) + s.2)) := by
      simp only [TcpConn.runAcks]
    rw [hEq]
    by_cases hc : ack > c.lastAcked ∧ ack ≥ c.totalBytes ∧ c.doneAt = none
    · rw [if_pos hc] at h
      have hcb : (c.onAck cb ack now).cbPresent = false :=
        (Prod.ext_iff.mp (Prod.ext_iff.mp h).2).1
      have hz := (tcp_runAcks_cb_false rest (c.onAck cb ack now).conn).2
      simp only [hcb]
      simp [hz]
      split <;> omega
    · rw [if_neg hc] at h
      have hfi : (c.onAck cb ack now).fired = false :=
        (Prod.ext_iff.mp (Prod.ext_iff.mp h).2).2
      simp only [hfi]
      simpa using ih (c.onAck cb ack now).conn (c.onAck cb ack now).cbPresent

/-- DCTCP version of tcp_runAcks_cb_false. -/
theorem dctcp_runAcks_cb_false : ∀ (l : List (Nat × Bool × Nat × Nat)) (c : DctcpConn),
    (DctcpConn.runAcks (c, false) l).1.2 = false ∧
    (DctcpConn.runAcks (c, false) l).2 = 0 := by
  intro l
  induction l with
  | nil => intro c; exact ⟨rfl, rfl⟩
  | cons p rest ih =>
    intro c
    obtain ⟨ack, e, now, fc⟩ := p
    have h := dctcp_onAck_done_char c false ack e now fc
    have hcb : (c.onAck false ack e now fc).cbPresent = false := by
      by_cases hc : ack > c.lastAcked ∧ ack ≥ c.totalBytes ∧ c.doneAt = none
      · rw [if_pos hc] at h; exact (Prod.ext_iff.mp (Prod.ext_iff.mp h).2).1
      · rw [if_neg hc] at h; exact (Prod.ext_iff.mp (Prod.ext_iff.mp h).2).1
    have hfi : (c.onAck false ack e now fc).fired = false := by
      by_cases hc : ack > c.lastAcked ∧ ack ≥ c.totalBytes ∧ c.doneAt = none
      · rw [if_pos hc] at h; exact (Prod.ext_iff.mp (Prod.ext_iff.mp h).2).2
      · rw [if_neg hc] at h; exact (Prod.ext_iff.mp (Prod.ext_iff.mp h).2).2
    have hEq : DctcpConn.runAcks (c, false) ((ack, e, now, fc) :: rest) =
        (let r := c.onAck false ack e now fc
         let s := DctcpConn.runAcks (r.conn, r.cbPresent) rest
         (s.1, (if r.fired then 1 else 0) + s.2)) := by
      simp only [DctcpConn.runAcks]
    rw [hEq]
    simp only [hcb, hfi]
    obtain ⟨h1, h2⟩ := ih (c.onAck false ack e now fc).conn
    simp [h1, h2]

/-- Over any ACK sequence the DCTCP done callback fires at most once. -/
theorem dctcp_runAcks_fires_le_one :
    ∀ (l : List (Nat × Bool × Nat × Nat)) (c : DctcpConn) (cb : Bool),
    (DctcpConn.runAcks (c, cb) l).2 ≤ 1 := by
  intro l
  induction l with
  | nil => intro c cb; exact Nat.zero_le 1
  | cons p rest ih =>
    intro c cb
    obtain ⟨ack, e, now, fc⟩ := p
    have h := dctcp_onAck_done_char c cb ack e now fc
    have hEq : DctcpConn.runAcks (c, cb) ((ack, e, now, fc) :: rest) =
        (let r := c.onAck cb ack e now fc
         let s := DctcpConn.runAcks (r.conn, r.cbPresent) rest
         (s.1, (if r.fired then 1 else 0) + s.2)) := by
      simp only [DctcpConn.runAcks]
    rw [hEq]
    by_cases hc : ack > c.lastAcked ∧ ack ≥ c.totalBytes ∧ c.doneAt = none
    · rw [if_pos hc] at h
      have hcb : (c.onAck cb ack e now fc).cbPresent = false :=
        (Prod.ext_iff.mp (Prod.ext_iff.mp h).2).1
      have hz := (dctcp_runAcks_cb_false rest (c.onAck cb ack e now fc).conn).2
      simp only [hcb]
      simp [hz]
      split <;> omega
    · rw [if_neg hc] at h
      have hfi : (c.onAck cb ack e now fc).fired = false :=
        (Prod.ext_iff.mp (Prod.ext_iff.mp h).2).2
      simp only [hfi]
      simpa using ih (c.onAck cb ack e now fc).conn (c.onAck cb ack e now fc).cbPresent

/-- C6, counterexample. A zero-byte TCP connection satisfies
last_acked >= total_bytes from the start, yet the cumulative ACK
ack = 0 — the first ACK for which that holds — leaves done_at unset and
fires no callback, because the completion check sits inside the
ack > last_acked branch of on_tcp_segment. -/
theorem tcp_done_missed_when_total_zero :
    (TcpConn.new 0 tcpCfgEx).lastAcked ≥ (TcpConn.new 0 tcpCfgEx).totalBytes ∧
    ((TcpConn.new 0 tcpCfgEx).onAck true 0 5).conn.doneAt = none ∧
    ((TcpConn.new 0 tcpCfgEx).onAck true 0 5).fired = false := by
  refine ⟨Nat.le_refl 0, ?_, ?_⟩ <;> rfl

/-- C6, amended: done_at is assigned exactly once, at the first
*advancing* cumulative ACK (ack > last_acked) with ack >= total_bytes —
on such a step done_at goes from none to some now, the callback entry is
removed, and the callback fires iff it was present; every other ACK
leaves done_at and the callback entry unchanged and fires nothing.
Consequently, over any sequence of delivered ACKs the done callback of a
TCP or DCTCP connection is invoked at most once. -/
theorem connection_done_once :
    (∀ (c : TcpConn) (cb : Bool) (ack now : Nat),
      ((c.onAck cb ack now).conn.doneAt, (c.onAck cb ack now).cbPresent,
        (c.onAck cb ack now).fired) =
        (if ack > c.lastAcked ∧ ack ≥ c.totalBytes ∧ c.doneAt = none
         then (some now, false, cb) else (c.doneAt, cb, false))) ∧
    (∀ (l : List (Nat × Nat)) (c : TcpConn) (cb : Bool),
      (TcpConn.runAcks (c, cb) l).2 ≤ 1) ∧
    (∀ (c : DctcpConn) (cb : Bool) (ack : Nat) (e : Bool) (now fc : Nat),
      ((c.onAck cb ack e now fc).conn.doneAt, (c.onAck cb ack e now fc).cbPresent,
        (c.onAck cb ack e now fc).fired) =
        (if ack > c.lastAcked ∧ ack ≥ c.totalBytes ∧ c.doneAt = none
         then (some now, false, cb) else (c.doneAt, cb, false))) ∧
    (∀ (l : List (Nat × Bool × Nat × Nat)) (c : DctcpConn) (cb : Bool),
      (DctcpConn.runAcks (c, cb) l).2 ≤ 1) :=
  ⟨tcp_onAck_done_char, tcp_runAcks_fires_le_one,
   dctcp_onAck_done_char, dctcp_runAcks_fires_le_one⟩

/-! ## C10: the congestion window never drops below one MSS -/

theorem tcp_sendData_cwnd (c : TcpConn) (now : Nat) :
    (c.sendDataIfPossible now).1.cwndBytes = c.cwndBytes := (tcp_sendData_fields c now).1

theorem tcp_sendData_ssthresh (c : TcpConn) (now : Nat) :
    (c.sendDataIfPossible now).1.ssthreshBytes = c.ssthreshBytes :=
  (tcp_sendData_fields c now).2.1

theorem tcp_sendData_cfg (c : TcpConn) (now : Nat) :
    (c.sendDataIfPossible now).1.cfg = c.cfg := (tcp_sendData_fields c now).2.2.1

theorem tcp_restartRto_cwnd (c : TcpConn) (now : Nat) :
    (c.restartRto now).cwndBytes = c.cwndBytes := (tcp_restartRto_fields c now).1

theorem tcp_restartRto_ssthresh (c : TcpConn) (now : Nat) :
    (c.restartRto now).ssthreshBytes = c.ssthreshBytes := (tcp_restartRto_fields c now).2.1

theorem tcp_restartRto_cfg (c : TcpConn) (now : Nat) :
    (c.restartRto now).cfg = c.cfg := (tcp_restartRto_fields c now).2.2.1

theorem tcp_fastRetransmit_cwnd (c : TcpConn) (now : Nat) :
    (c.fastRetransmit now).1.cwndBytes = c.cwndBytes :=
  (tcp_fastRetransmit_fields c now).2.2.2.2.1

theorem tcp_fastRetransmit_ssthresh (c : TcpConn) (now : Nat) :
    (c.fastRetransmit now).1.ssthreshBytes = c.ssthreshBytes :=
  (tcp_fastRetransmit_fields c now).2.2.2.2.2.1

theorem tcp_fastRetransmit_cfg (c : TcpConn) (now : Nat) :
    (c.fastRetransmit now).1.cfg = c.cfg := (tcp_fastRetransmit_fields c now).2.2.2.1

theorem dctcp_sendData_cwnd (c : DctcpConn) :
    (c.sendDataIfPossible).1.cwndBytes = c.cwndBytes := (dctcp_sendData_fields c).1

theorem dctcp_sendData_ssthresh (c : DctcpConn) :
    (c.sendDataIfPossible).1.ssthreshBytes = c.ssthreshBytes := (dctcp_sendData_fields c).2.1

theorem dctcp_sendData_cfg (c : DctcpConn) :
    (c.sendDataIfPossible).1.cfg = c.cfg := (dctcp_sendData_fields c).2.2.1

set_option maxHeartbeats 1000000 in
/-- The TCP new-ACK stage preserves the window invariant: every branch
either leaves cwnd alone, saturating-adds to it, or clamps it from
below by the window parameters. -/
theorem tcp_onAckNewConn_cwndInv (c : TcpConn) (ack now : Nat) (h : TcpCwndInv c) :
    TcpCwndInv (c.onAckNewConn ack now).1 := by
  obtain ⟨h1, h2, h3, h4, h5⟩ := h
  unfold TcpConn.onAckNewConn
  cases hs : rttSampleLoop now ack c.inflight none with
  | none =>
    simp only []
    split
    · split
      · unfold TcpCwndInv
        simp only []
        simp only [satAdd64, satSub, satMul64, u64Max, u32Max] at *
        refine ⟨?_, h2, ?_, h4, h5⟩ <;> omega
      · split <;>
          (unfold TcpCwndInv
           simp only []
           simp only [satAdd64, satSub, satMul64, u64Max, u32Max] at *
           refine ⟨?_, h2, ?_, h4, h5⟩ <;> omega)
    · split <;>
        (unfold TcpCwndInv
         simp only []
         simp only [satAdd64, satSub, satMul64, u64Max, u32Max] at *
         refine ⟨?_, h2, ?_, h4, h5⟩ <;> omega)
  | some v =>
    obtain ⟨hcw, hss, hcfg, _, _, _, _, _, _, _⟩ := updateRtoWithSample_fields c v
    simp only []
    split
    · split
      · unfold TcpCwndInv
        simp only [hcw, hss, hcfg]
        simp only [satAdd64, satSub, satMul64, u64Max, u32Max] at *
        refine ⟨?_, h2, ?_, h4, h5⟩ <;> omega
      · split <;>
          (unfold TcpCwndInv
           simp only [hcw, hss, hcfg]
           simp only [satAdd64, satSub, satMul64, u64Max, u32Max] at *
           refine ⟨?_, h2, ?_, h4, h5⟩ <;> omega)
    · split <;>
        (unfold TcpCwndInv
         simp only [hcw, hss, hcfg]
         simp only [satAdd64, satSub, satMul64, u64Max, u32Max] at *
         refine ⟨?_, h2, ?_, h4, h5⟩ <;> omega)

set_option maxHeartbeats 1000000 in
/-- ACK processing preserves the TCP window invariant. -/
theorem tcp_onAck_cwndInv (c : TcpConn) (cb : Bool) (ack now : Nat) (h : TcpCwndInv c) :
    TcpCwndInv (c.onAck cb ack now).conn := by
  obtain ⟨h1, h2, h3, h4, h5⟩ := h
  unfold TcpConn.onAck
  by_cases hgt : ack > c.lastAcked
  · rw [if_pos hgt]
    obtain ⟨g1, g2, g3, g4, g5⟩ := tcp_onAckNewConn_cwndInv c ack now ⟨h1, h2, h3, h4, h5⟩
    simp only []
    split
    · exact ⟨g1, g2, g3, g4, g5⟩
    · unfold TcpCwndInv
      simp only [tcp_sendData_cwnd, tcp_sendData_ssthresh, tcp_sendData_cfg,
        tcp_restartRto_cwnd, tcp_restartRto_ssthresh, tcp_restartRto_cfg]
      exact ⟨g1, g2, g3, g4, g5⟩
  · rw [if_neg hgt]
    by_cases heq : ack = c.lastAcked
    · rw [if_pos heq]
      split
      · unfold TcpCwndInv
        simp only [tcp_sendData_cwnd, tcp_sendData_ssthresh, tcp_sendData_cfg]
        simp only [satAdd64, u64Max, u32Max] at *
        refine ⟨?_, h2, ?_, h4, h5⟩ <;> omega
      · simp only []
        split
        · split
          · exact ⟨h1, h2, h3, h4, h5⟩
          · unfold TcpCwndInv
            simp only [tcp_sendData_cwnd, tcp_sendData_ssthresh, tcp_sendData_cfg,
              tcp_fastRetransmit_cwnd, tcp_fastRetransmit_ssthresh, tcp_fastRetransmit_cfg]
            simp only [satAdd64, u64Max, u32Max] at *
            refine ⟨?_, ?_, ?_, ?_, h5⟩ <;> omega
        · split
          · unfold TcpCwndInv
            simp only [tcp_sendData_cwnd, tcp_sendData_ssthresh, tcp_sendData_cfg]
            simp only [satAdd64, u64Max, u32Max] at *
            refine ⟨?_, h2, ?_, h4, h5⟩ <;> omega
          · exact ⟨h1, h2, h3, h4, h5⟩
    · rw [if_neg heq]
      exact ⟨h1, h2, h3, h4, h5⟩

set_option maxHeartbeats 1000000 in
/-- The TCP RTO handler preserves the window invariant (it sets cwnd to
exactly one MSS and ssthresh to at least two). -/
theorem tcp_rto_cwndInv (c : TcpConn) (token now : Nat) (h : TcpCwndInv c) :
    TcpCwndInv (TcpRto.execute c token now).1 := by
  obtain ⟨h1, h2, h3, h4, h5⟩ := h
  unfold TcpRto.execute
  split
  · exact ⟨h1, h2, h3, h4, h5⟩
  · split
    · exact ⟨h1, h2, h3, h4, h5⟩
    · split
      · exact ⟨h1, h2, h3, h4, h5⟩
      · simp only []
        split
        · split
          · unfold TcpCwndInv TcpConn.scheduleRto
            simp only []
            exact ⟨h1, h2, h3, h4, h5⟩
          · exact ⟨h1, h2, h3, h4, h5⟩
        · split
          · exact ⟨h1, h2, h3, h4, h5⟩
          · split
            · exact ⟨h1, h2, h3, h4, h5⟩
            · unfold TcpCwndInv TcpConn.scheduleRto
              simp only []
              split
              · simp only [satAdd64, satSub, u64Max, u32Max] at *
                refine ⟨?_, ?_, ?_, ?_, h5⟩ <;> omega
              · simp only [satAdd64, satSub, u64Max, u32Max] at *
                refine ⟨?_, ?_, ?_, ?_, h5⟩ <;> omega

/-- Construction establishes the TCP window invariant: the initial
windows are clamped up to at least one MSS. -/
theorem tcp_new_cwndInv (t : Nat) (cfg : TcpConfig)
    (hc : cfg.initCwndBytes ≤ u64Max) (hsb : cfg.initSsthreshBytes ≤ u64Max)
    (hm : cfg.mss ≤ u32Max) : TcpCwndInv (TcpConn.new t cfg) := by
  unfold TcpCwndInv TcpConn.new
  simp only []
  simp only [u64Max, u32Max] at *
  refine ⟨?_, ?_, ?_, ?_, hm⟩ <;> omega

set_option maxHeartbeats 1000000 in
/-- The DCTCP new-ACK stage preserves the window invariant; the
window-boundary multiplicative decrease is clamped below by one MSS,
and the growth step caps cwnd with a saturating add. -/
theorem dctcp_onAckNewConn_cwndInv (c : DctcpConn) (ack : Nat) (e : Bool) (fc : Nat)
    (h : DctcpCwndInv c) :
    DctcpCwndInv (c.onAckNewConn ack e fc) := by
  obtain ⟨h1, h2, h3, h4, h5⟩ := h
  unfold DctcpConn.onAckNewConn
  simp only []
  split <;> split <;> (try split) <;> (try split) <;>
    (unfold DctcpCwndInv
     simp only []
     simp only [satAdd64, satMul64, u64Max, u32Max] at *
     refine ⟨?_, h2, ?_, h4, h5⟩ <;> omega)

set_option maxHeartbeats 1000000 in
/-- DCTCP ACK processing preserves the window invariant. -/
theorem dctcp_onAck_cwndInv (c : DctcpConn) (cb : Bool) (ack : Nat) (e : Bool)
    (now fc : Nat) (h : DctcpCwndInv c) :
    DctcpCwndInv (c.onAck cb ack e now fc).conn := by
  obtain ⟨h1, h2, h3, h4, h5⟩ := h
  unfold DctcpConn.onAck
  by_cases hgt : ack > c.lastAcked
  · rw [if_pos hgt]
    obtain ⟨g1, g2, g3, g4, g5⟩ :=
      dctcp_onAckNewConn_cwndInv c ack e fc ⟨h1, h2, h3, h4, h5⟩
    simp only []
    split
    · exact ⟨g1, g2, g3, g4, g5⟩
    · unfold DctcpCwndInv
      simp only [dctcp_sendData_cwnd, dctcp_sendData_ssthresh, dctcp_sendData_cfg]
      exact ⟨g1, g2, g3, g4, g5⟩
  · rw [if_neg hgt]
    by_cases heq : ack = c.lastAcked
    · rw [if_pos heq]
      simp only []
      split
      · split
        · unfold DctcpCwndInv
          simp only []
          simp only [satAdd64, u64Max, u32Max] at *
          refine ⟨?_, ?_, ?_, ?_, h5⟩ <;> omega
        · exact ⟨h1, h2, h3, h4, h5⟩
      · split
        · unfold DctcpCwndInv
          simp only [dctcp_sendData_cwnd, dctcp_sendData_ssthresh, dctcp_sendData_cfg]
          simp only [satAdd64, u64Max, u32Max] at *
          refine ⟨?_, h2, ?_, h4, h5⟩ <;> omega
        · exact ⟨h1, h2, h3, h4, h5⟩
    · rw [if_neg heq]
      exact ⟨h1, h2, h3, h4, h5⟩

set_option maxHeartbeats 1000000 in
/-- The DCTCP RTO handler preserves the window invariant. -/
theorem dctcp_rto_cwndInv (c : DctcpConn) (seq now : Nat) (h : DctcpCwndInv c) :
    DctcpCwndInv (DctcpRto.execute c seq now).1 := by
  obtain ⟨h1, h2, h3, h4, h5⟩ := h
  unfold DctcpRto.execute
  split
  · exact ⟨h1, h2, h3, h4, h5⟩
  · split
    · exact ⟨h1, h2, h3, h4, h5⟩
    · split
      · exact ⟨h1, h2, h3, h4, h5⟩
      · unfold DctcpCwndInv
        simp only []
        simp only [satMul64, u64Max, u32Max] at *
        refine ⟨?_, ?_, ?_, ?_, h5⟩ <;> omega

/-- Construction establishes the DCTCP window invariant. -/
theorem dctcp_new_cwndInv (t : Nat) (cfg : DctcpConfig)
    (hc : cfg.initCwndBytes ≤ u64Max) (hsb : cfg.initSsthreshBytes ≤ u64Max)
    (hm : cfg.mss ≤ u32Max) : DctcpCwndInv (DctcpConn.new t cfg) := by
  unfold DctcpCwndInv DctcpConn.new
  simp only []
  simp only [u64Max, u32Max] at *
  refine ⟨?_, ?_, ?_, ?_, hm⟩ <;> omega

/-- C10: cwnd_bytes >= mss (together with ssthresh_bytes >= mss and both
fitting in a u64) holds after construction whenever the configured
initial windows fit their machine widths, and is preserved by ACK
processing (slow start, congestion avoidance, fast recovery and
dup-ACK inflation), by the RTO handler (which sets cwnd to exactly one
MSS), and by the DCTCP window-boundary decrease (clamped below by one
MSS). -/
theorem cwnd_never_below_mss :
    (∀ (t : Nat) (cfg : TcpConfig), cfg.initCwndBytes ≤ u64Max →
      cfg.initSsthreshBytes ≤ u64Max → cfg.mss ≤ u32Max →
      TcpCwndInv (TcpConn.new t cfg)) ∧
    (∀ (c : TcpConn) (cb : Bool) (ack now : Nat),
      TcpCwndInv c → TcpCwndInv (c.onAck cb ack now).conn) ∧
    (∀ (c : TcpConn) (token now : Nat),
      TcpCwndInv c → TcpCwndInv (TcpRto.execute c token now).1) ∧
    (∀ (t : Nat) (cfg : DctcpConfig), cfg.initCwndBytes ≤ u64Max →
      cfg.initSsthreshBytes ≤ u64Max → cfg.mss ≤ u32Max →
      DctcpCwndInv (DctcpConn.new t cfg)) ∧
    (∀ (c : DctcpConn) (cb : Bool) (ack : Nat) (e : Bool) (now fc : Nat),
      DctcpCwndInv c → DctcpCwndInv (c.onAck cb ack e now fc).conn) ∧
    (∀ (c : DctcpConn) (seq now : Nat),
      DctcpCwndInv c → DctcpCwndInv (DctcpRto.execute c seq now).1) :=
  ⟨tcp_new_cwndInv, tcp_onAck_cwndInv, tcp_rto_cwndInv,
   dctcp_new_cwndInv, dctcp_onAck_cwndInv, dctcp_rto_cwndInv⟩

/-- C10 witness: the invariant at concrete configurations, via the claim
theorem with every hypothesis discharged by decide. -/
theorem cwnd_never_below_mss_witness :
    TcpCwndInv ((TcpConn.new 1000 tcpCfgEx).onAck true 1000 7).conn ∧
    DctcpCwndInv (DctcpRto.execute (DctcpConn.new 1000 dctcpCfgEx) 0 9).1 :=
  ⟨cwnd_never_below_mss.2.1 (TcpConn.new 1000 tcpCfgEx) true 1000 7
    (cwnd_never_below_mss.1 1000 tcpCfgEx (by decide) (by decide) (by decide)),
   cwnd_never_below_mss.2.2.2.2.2 (DctcpConn.new 1000 dctcpCfgEx) 0 9
    (cwnd_never_below_mss.2.2.2.1 1000 dctcpCfgEx (by decide) (by decide) (by decide))⟩


/-! ## C5: BFS distances and shortest-path next hops -/

theorem distGetD_set_self (dist : List Nat) (p x : Nat) (hp : p < dist.length) :
    distGetD (dist.set p x) p = x := by
  simp [distGetD, List.getD, List.getElem?_set_self, hp]

theorem distGetD_set_other (dist : List Nat) (p x w : Nat) (hw : w ≠ p) :
    distGetD (dist.set p x) w = distGetD dist w := by
  simp [distGetD, List.getD, List.getElem?_set_ne (fun h => hw h.symm)]

theorem countP_discover (f g : Nat → Bool) (p : Nat) :
    ∀ (l : List Nat), l.Nodup → p ∈ l → f p = true → g p = false →
    (∀ w ∈ l, w ≠ p → g w = f w) → l.countP g + 1 = l.countP f := by
  intro l
  induction l with
  | nil => intro _ hp; exact absurd hp (List.not_mem_nil p)
  | cons a rest ih =>
    intro hnd hp hfp hgp hag
    rcases List.mem_cons.mp hp with rfl | hpr
    · have hrest : ∀ w ∈ rest, g w = f w := by
        intro w hw
        exact hag w (List.mem_cons_of_mem _ hw)
          (fun he => (List.nodup_cons.mp hnd).1 (he ▸ hw))
      have : rest.countP g = rest.countP f :=
        List.countP_congr (fun x hx => by rw [hrest x hx])
      rw [List.countP_cons, List.countP_cons, hfp, hgp, this]
      simp
    · have hna : a ≠ p := fun he => (List.nodup_cons.mp hnd).1 (he ▸ hpr)
      have hga : g a = f a := hag a (List.mem_cons_self a rest) hna
      have := ih (List.nodup_cons.mp hnd).2 hpr hfp hgp
        (fun w hw hwp => hag w (List.mem_cons_of_mem _ hw) hwp)
      rw [List.countP_cons, List.countP_cons, hga]
      omega

theorem undiscCount_set (n : Nat) (dist : List Nat) (p x : Nat)
    (hlen : dist.length = n) (hp : p < n) (hpd : distGetD dist p = i32MaxN)
    (hx : x ≠ i32MaxN) :
    undiscCount n (dist.set p x) + 1 = undiscCount n dist := by
  unfold undiscCount
  rw [← List.countP_eq_length_filter, ← List.countP_eq_length_filter]
  refine countP_discover _ _ p (List.range n) (List.nodup_range n)
    (List.mem_range.mpr hp) ?_ ?_ ?_
  · simp [hpd]
  · simp [distGetD_set_self dist p x (hlen ▸ hp), hx]
  · intro w _ hwp
    simp [distGetD_set_other dist p x w hwp]

theorem mem_getD_lt {α : Type} (l : List (List α)) (v : Nat) (u : α)
    (h : u ∈ l.getD v []) : v < l.length := by
  by_contra hv
  rw [List.getD_eq_default] at h
  · exact absurd h (List.not_mem_nil u)
  · omega

theorem mem_rev_lt (rev : List (List Nat)) (n : Nat) (hrev : NodesOk rev n)
    (u p : Nat) (h : p ∈ rev.getD u []) : p < n := by
  have hu : u < rev.length := mem_getD_lt rev u p h
  have : rev.getD u [] ∈ rev := by
    rw [List.getD_eq_getElem rev [] hu]
    exact List.getElem_mem hu
  exact hrev.2 _ this p h

theorem rpath_lt (rev : List (List Nat)) (n dst : Nat) (hrev : NodesOk rev n)
    (hdst : dst < n) : ∀ v k, RPath rev dst v k → v < n := by
  intro v k h
  induction h with
  | zero => exact hdst
  | succ hp he _ => exact mem_rev_lt rev n hrev _ _ he

theorem rpath_zero_inv (rev : List (List Nat)) (dst v : Nat)
    (h : RPath rev dst v 0) : v = dst := by
  cases h; rfl

theorem rpath_succ_inv (rev : List (List Nat)) (dst v k : Nat)
    (h : RPath rev dst v (k + 1)) :
    ∃ u, RPath rev dst u k ∧ v ∈ rev.getD u [] := by
  cases h with
  | succ hp he => exact ⟨_, hp, he⟩

theorem level_witness_bound (L : Nat → Nat) (n d : Nat)
    (h : ∀ j, j ≤ d → ∃ v, v < n ∧ L v = j) : d < n := by
  classical
  choose f hf using h
  have hinj : Function.Injective (fun j : Fin (d + 1) =>
      (⟨f j.1 (Nat.lt_succ_iff.mp j.2), (hf j.1 (Nat.lt_succ_iff.mp j.2)).1⟩ : Fin n)) := by
    intro a b hab
    have ha := (hf a.1 (Nat.lt_succ_iff.mp a.2)).2
    have hb := (hf b.1 (Nat.lt_succ_iff.mp b.2)).2
    apply Fin.ext
    rw [← ha, ← hb]
    exact congrArg L (congrArg Fin.val hab)
  have := Fintype.card_le_of_injective _ hinj
  simpa using this

theorem satAddI32_eq (d : Nat) (hd : d + 1 < i32MaxN) : satAddI32 d 1 = d + 1 := by
  unfold satAddI32
  omega

theorem bfsRelax_fold (n d : Nat) (hd : d + 1 < i32MaxN) :
    ∀ (ns : List Nat) (dist q : List Nat), dist.length = n → (∀ p ∈ ns, p < n) →
    (ns.foldl (bfsRelax d) (dist, q)).1.length = n ∧
    (∀ w, distGetD dist w ≠ i32MaxN →
      distGetD (ns.foldl (bfsRelax d) (dist, q)).1 w = distGetD dist w) ∧
    (∀ w, distGetD (ns.foldl (bfsRelax d) (dist, q)).1 w = distGetD dist w ∨
      (distGetD dist w = i32MaxN ∧
       distGetD (ns.foldl (bfsRelax d) (dist, q)).1 w = d + 1 ∧ w ∈ ns)) ∧
    (∀ p ∈ ns, distGetD (ns.foldl (bfsRelax d) (dist, q)).1 p ≠ i32MaxN) ∧
    (∃ fresh, (ns.foldl (bfsRelax d) (dist, q)).2 = q ++ fresh ∧
      (∀ w ∈ fresh, w < n ∧ distGetD dist w = i32MaxN ∧
        distGetD (ns.foldl (bfsRelax d) (dist, q)).1 w = d + 1) ∧
      (∀ w, distGetD dist w = i32MaxN →
        distGetD (ns.foldl (bfsRelax d) (dist, q)).1 w ≠ i32MaxN → w ∈ fresh) ∧
      undiscCount n (ns.foldl (bfsRelax d) (dist, q)).1 + fresh.length =
        undiscCount n dist) := by
  intro ns
  induction ns with
  | nil =>
    intro dist q hlen _
    refine ⟨hlen, fun w _ => rfl, fun w => Or.inl rfl, ?_, [], by simp, ?_, ?_, ?_⟩
    · intro p hp; exact absurd hp (List.not_mem_nil p)
    · intro w hw; exact absurd hw (List.not_mem_nil w)
    · intro w hw hnw; exact absurd hw (fun h => hnw h)
    · simp
  | cons p rest ih =>
    intro dist q hlen hns
    have hp : p < n := hns p (List.mem_cons_self p rest)
    have hrest : ∀ w ∈ rest, w < n := fun w hw => hns w (List.mem_cons_of_mem _ hw)
    rw [List.foldl_cons]
    by_cases hdisc : distGetD dist p = i32MaxN
    · have hstep : bfsRelax d (dist, q) p =
          (dist.set p (d + 1), q ++ [p]) := by
        unfold bfsRelax
        rw [if_pos hdisc, satAddI32_eq d hd]
      rw [hstep]
      have hlen1 : (dist.set p (d + 1)).length = n := by
        rw [List.length_set]; exact hlen
      obtain ⟨g1, g2, g3, g4, fresh, gf1, gf2, gf2b, gf3⟩ :=
        ih (dist.set p (d + 1)) (q ++ [p]) hlen1 hrest
      have hself : distGetD (dist.set p (d + 1)) p = d + 1 :=
        distGetD_set_self dist p (d + 1) (by omega)
      have hother : ∀ w, w ≠ p →
          distGetD (dist.set p (d + 1)) w = distGetD dist w :=
        fun w hw => distGetD_set_other dist p (d + 1) w hw
      refine ⟨g1, ?_, ?_, ?_, p :: fresh, ?_, ?_, ?_, ?_⟩
      · intro w hw
        by_cases hwp : w = p
        · exact absurd (hwp ▸ hdisc) hw
        · rw [g2 w (by rw [hother w hwp]; exact hw), hother w hwp]
      · intro w
        by_cases hwp : w = p
        · subst hwp
          right
          refine ⟨hdisc, ?_, List.mem_cons_self w rest⟩
          rw [g2 w (by rw [hself]; omega)]
          exact hself
        · rcases g3 w with h | ⟨ha, hb, hc⟩
          · rw [hother w hwp] at h
            exact Or.inl h
          · rw [hother w hwp] at ha
            exact Or.inr ⟨ha, hb, List.mem_cons_of_mem _ hc⟩
      · intro u hu
        rcases List.mem_cons.mp hu with rfl | hur
        · rw [g2 u (by rw [hself]; omega), hself]
          omega
        · exact g4 u hur
      · rw [gf1, List.append_assoc]
        rfl
      · intro w hw
        rcases List.mem_cons.mp hw with rfl | hwf
        · refine ⟨hp, hdisc, ?_⟩
          rw [g2 w (by rw [hself]; omega), hself]
        · obtain ⟨ha, hb, hc⟩ := gf2 w hwf
          by_cases hwp : w = p
          · subst hwp
            refine ⟨ha, hdisc, hc⟩
          · rw [hother w hwp] at hb
            exact ⟨ha, hb, hc⟩
      · intro w hw hnw
        by_cases hwp : w = p
        · exact hwp ▸ List.mem_cons_self p fresh
        · refine List.mem_cons_of_mem p (gf2b w ?_ hnw)
          rw [hother w hwp]
          exact hw
      · have hund : undiscCount n (dist.set p (d + 1)) + 1 = undiscCount n dist :=
          undiscCount_set n dist p (d + 1) hlen hp hdisc (by omega)
        simp only [List.length_cons]
        omega
    · have hstep : bfsRelax d (dist, q) p = (dist, q) := by
        unfold bfsRelax
        rw [if_neg hdisc]
      rw [hstep]
      obtain ⟨g1, g2, g3, g4, fresh, gf1, gf2, gf2b, gf3⟩ := ih dist q hlen hrest
      refine ⟨g1, g2, ?_, ?_, fresh, gf1, gf2, gf2b, gf3⟩
      · intro w
        rcases g3 w with h | ⟨ha, hb, hc⟩
        · exact Or.inl h
        · exact Or.inr ⟨ha, hb, List.mem_cons_of_mem _ hc⟩
      · intro u hu
        rcases List.mem_cons.mp hu with rfl | hur
        · rw [g2 u hdisc]
          exact hdisc
        · exact g4 u hur



theorem bfs_complete (rev : List (List Nat)) (n dst : Nat) (dist : List Nat)
    (hnrev : NodesOk rev n) (hdst : dst < n)
    (hdisc0 : distGetD dist dst ≠ i32MaxN)
    (hclos : ∀ v, v < n → distGetD dist v ≠ i32MaxN →
      ∀ p ∈ rev.getD v [], distGetD dist p ≠ i32MaxN) :
    ∀ v k, RPath rev dst v k → v < n ∧ distGetD dist v ≠ i32MaxN := by
  intro v k h
  induction h with
  | zero => exact ⟨hdst, hdisc0⟩
  | succ hp he ih =>
    exact ⟨mem_rev_lt rev n hnrev _ _ he, hclos _ ih.1 ih.2 _ he⟩

theorem bfs_advance (rev : List (List Nat)) (n dst : Nat) (dist : List Nat)
    (d v : Nat) (q2' : List Nat) (hnrev : NodesOk rev n) (hdst : dst < n)
    (hinv : BfsInv rev n dst dist d [] (v :: q2')) :
    BfsInv rev n dst dist (d + 1) (v :: q2') [] := by
  obtain ⟨i1, i2, i3, _, i5, i6, i7, i8, i9⟩ := hinv
  refine ⟨i1, i2, i3, i5, ?_, ?_, ?_, ?_, ?_⟩
  · intro w hw; exact absurd hw (List.not_mem_nil w)
  · intro j hj
    rcases Nat.lt_or_ge j (d + 1) with hj' | hj'
    · exact i6 j (by omega)
    · have : j = d + 1 := by omega
      subst this
      exact ⟨v, (i5 v (List.mem_cons_self v q2')).1, (i5 v (List.mem_cons_self v q2')).2⟩
  · intro w hw hund k hk
    have hge := i7 w hw hund k hk
    rcases Nat.lt_or_ge k (d + 2) with hk2 | hk2
    · -- k = d + 1 : derive a contradiction
      have hkd : k = d + 1 := by omega
      subst hkd
      obtain ⟨u, hu, hue⟩ := rpath_succ_inv rev dst w d hk
      have hult : u < n := rpath_lt rev n dst hnrev hdst u d hu
      have hud : distGetD dist u ≠ i32MaxN := by
        intro hus
        have := i7 u hult hus d hu
        omega
      have humin : distGetD dist u ≤ d := (i3 u hult hud).2 d hu
      have hunq : u ∉ ([] : List Nat) ++ (v :: q2') := by
        intro hmem
        rw [List.nil_append] at hmem
        have := (i5 u hmem).2
        omega
      exact absurd (i8 u hult hud hunq w hue) (fun h => h hund)
    · exact hk2
  · intro w hw hdisc hq p hp
    refine i8 w hw hdisc ?_ p hp
    intro hmem
    apply hq
    rw [List.append_nil]
    rw [List.nil_append] at hmem
    exact hmem
  · intro w hw hdisc
    have := i9 w hw hdisc
    omega

theorem i32MaxN_pos0 : (0 : Nat) ≠ i32MaxN := by
  unfold i32MaxN
  omega

theorem bfs_pop (rev : List (List Nat)) (n dst : Nat) (dist : List Nat)
    (d v : Nat) (q1' q2 : List Nat) (hnrev : NodesOk rev n)
    (hn : n < i32MaxN)
    (hinv : BfsInv rev n dst dist d (v :: q1') q2) :
    ∃ dist' fresh,
      (rev.getD v []).foldl (bfsRelax d) (dist, q1' ++ q2) =
        (dist', (q1' ++ q2) ++ fresh) ∧
      BfsInv rev n dst dist' d q1' (q2 ++ fresh) ∧
      undiscCount n dist' + fresh.length = undiscCount n dist := by
  obtain ⟨i1, i2, i3, i4, i5, i6, i7, i8, i9⟩ := hinv
  have hdn : d < n :=
    level_witness_bound (distGetD dist) n d i6
  have hd1 : d + 1 < i32MaxN := by omega
  have hns : ∀ p ∈ rev.getD v [], p < n :=
    fun p hp => mem_rev_lt rev n hnrev v p hp
  obtain ⟨g1, g2, g3, g4, fresh, gf1, gf2, gf2b, gf3⟩ :=
    bfsRelax_fold n d hd1 (rev.getD v []) dist (q1' ++ q2) i1 hns
  have hvn : v < n := (i4 v (List.mem_cons_self v q1')).1
  have hvd : distGetD dist v = d := (i4 v (List.mem_cons_self v q1')).2
  have hdsent : d ≠ i32MaxN := by omega
  have hvdisc : distGetD dist v ≠ i32MaxN := by rw [hvd]; exact hdsent
  have hpair : (rev.getD v []).foldl (bfsRelax d) (dist, q1' ++ q2) =
      (((rev.getD v []).foldl (bfsRelax d) (dist, q1' ++ q2)).1,
        (q1' ++ q2) ++ fresh) := by
    rw [← gf1]
  refine ⟨((rev.getD v []).foldl (bfsRelax d) (dist, q1' ++ q2)).1, fresh,
    hpair, ⟨g1, ?_, ?_, ?_, ?_, ?_, ?_, ?_, ?_⟩, gf3⟩
  · rw [g2 dst (by rw [i2]; exact fun h => i32MaxN_pos0 h)]
    exact i2
  · intro w hw hdisc
    rcases g3 w with heq | ⟨ha, hb, hc⟩
    · rw [heq] at hdisc ⊢
      exact i3 w hw hdisc
    · rw [hb]
      constructor
      · have hrv : RPath rev dst v d := by
          have := (i3 v hvn hvdisc).1
          rw [hvd] at this
          exact this
        exact RPath.succ hrv hc
      · intro k hk
        exact i7 w hw ha k hk
  · intro w hw
    have hm := i4 w (List.mem_cons_of_mem v hw)
    refine ⟨hm.1, ?_⟩
    rw [g2 w (by rw [hm.2]; exact hdsent)]
    exact hm.2
  · intro w hw
    rcases List.mem_append.mp hw with hw2 | hwf
    · have hm := i5 w hw2
      refine ⟨hm.1, ?_⟩
      rw [g2 w (by rw [hm.2]; omega)]
      exact hm.2
    · obtain ⟨ha, _, hb⟩ := gf2 w hwf
      exact ⟨ha, hb⟩
  · intro j hj
    obtain ⟨w, hw1, hw2⟩ := i6 j hj
    refine ⟨w, hw1, ?_⟩
    rw [g2 w (by rw [hw2]; omega)]
    exact hw2
  · intro w hw hund k hk
    rcases g3 w with heq | ⟨_, hb, _⟩
    · rw [heq] at hund
      exact i7 w hw hund k hk
    · rw [hb] at hund
      omega
  · intro w hw hdisc hq p hp
    by_cases hwv : w = v
    · subst hwv
      exact g4 p hp
    · by_cases hold : distGetD dist w = i32MaxN
      · exact absurd (List.mem_append.mpr (Or.inr (List.mem_append.mpr
          (Or.inr (gf2b w hold hdisc))))) hq
      · have hwq : w ∉ (v :: q1') ++ q2 := by
          intro hmem
          rcases List.mem_append.mp hmem with hmem1 | hmem2
          · rcases List.mem_cons.mp hmem1 with rfl | hmem1'
            · exact hwv rfl
            · exact hq (List.mem_append.mpr (Or.inl hmem1'))
          · exact hq (List.mem_append.mpr (Or.inr (List.mem_append.mpr
              (Or.inl hmem2))))
        have := i8 w hw hold hwq p hp
        rw [g2 p this]
        exact this
  · intro w hw hdisc
    rcases g3 w with heq | ⟨_, hb, _⟩
    · rw [heq] at hdisc ⊢
      exact i9 w hw hdisc
    · rw [hb]

set_option maxHeartbeats 1000000 in
theorem bfsAux_final (rev : List (List Nat)) (n dst : Nat)
    (hnrev : NodesOk rev n) (hdst : dst < n) (hn : n < i32MaxN) :
    ∀ (fuel : Nat) (dist : List Nat) (d : Nat) (q1 q2 : List Nat),
    BfsInv rev n dst dist d q1 q2 →
    (q1 ++ q2).length + undiscCount n dist < fuel →
    BfsFinal rev n dst (bfsAux rev fuel (q1 ++ q2) dist) := by
  intro fuel
  induction fuel with
  | zero => intro dist d q1 q2 _ hf; omega
  | succ fuel ih =>
    intro dist d q1 q2 hinv hf
    cases hq1 : q1 with
    | cons v q1' =>
      subst hq1
      obtain ⟨dist', fresh, hpair, hinv', hcount⟩ :=
        bfs_pop rev n dst dist d v q1' q2 hnrev hn hinv
      have hvd : distGetD dist v = d :=
        (hinv.2.2.2.1 v (List.mem_cons_self v q1')).2
      have hstep : bfsAux rev (fuel + 1) ((v :: q1') ++ q2) dist =
          bfsAux rev fuel ((q1' ++ q2) ++ fresh) dist' := by
        have hEq : bfsAux rev (fuel + 1) (v :: (q1' ++ q2)) dist =
            (match (rev.getD v []).foldl (bfsRelax (distGetD dist v))
                (dist, q1' ++ q2) with
             | (dist2, q3) => bfsAux rev fuel q3 dist2) := rfl
        rw [List.cons_append, hEq, hvd, hpair]
      rw [hstep, List.append_assoc]
      refine ih dist' d q1' (q2 ++ fresh) hinv' ?_
      simp only [List.length_append, List.length_cons] at *
      omega
    | nil =>
      subst hq1
      cases hq2 : q2 with
      | nil =>
        subst hq2
        have hfin : bfsAux rev (fuel + 1) ([] ++ []) dist = dist := rfl
        rw [hfin]
        obtain ⟨i1, i2, i3, _, _, i6, _, i8, i9⟩ := hinv
        refine ⟨i1, i2, i3, ?_, ?_⟩
        · intro v hv hdisc
          have hlab := i9 v hv hdisc
          have hdn : d < n := level_witness_bound (distGetD dist) n d i6
          omega
        intro v k hk
        exact (bfs_complete rev n dst dist hnrev hdst
          (by rw [i2]; exact fun h => i32MaxN_pos0 h)
          (fun w hw hdisc p hp => i8 w hw hdisc
            (fun hmem => absurd hmem (List.not_mem_nil w)) p hp) v k hk).2
      | cons v q2' =>
        subst hq2
        have hadv := bfs_advance rev n dst dist d v q2' hnrev hdst hinv
        obtain ⟨dist', fresh, hpair, hinv', hcount⟩ :=
          bfs_pop rev n dst dist (d + 1) v q2' [] hnrev hn hadv
        have hvd : distGetD dist v = d + 1 :=
          (hinv.2.2.2.2.1 v (List.mem_cons_self v q2')).2
        have hstep : bfsAux rev (fuel + 1) ([] ++ (v :: q2')) dist =
            bfsAux rev fuel ((q2' ++ []) ++ fresh) dist' := by
          have hEq : bfsAux rev (fuel + 1) (v :: q2') dist =
              (match (rev.getD v []).foldl (bfsRelax (distGetD dist v))
                  (dist, q2') with
               | (dist2, q3) => bfsAux rev fuel q3 dist2) := rfl
          rw [List.nil_append, hEq, hvd,
            show (dist, q2') = (dist, q2' ++ []) from by rw [List.append_nil],
            hpair]
        rw [hstep, List.append_assoc]
        refine ih dist' (d + 1) q2' ([] ++ fresh) hinv' ?_
        simp only [List.length_append, List.nil_append, List.length_nil,
          List.length_cons] at *
        omega

/-- `bfsDist` computes exact hop distances over the reverse adjacency:
attained and minimal on discovered nodes, sentinel exactly on nodes with
no path. -/
theorem bfsDist_final (rev : List (List Nat)) (n dst : Nat)
    (hnrev : NodesOk rev n) (hdst : dst < n) (hn : n < i32MaxN) :
    BfsFinal rev n dst (bfsDist rev n dst) := by
  unfold bfsDist
  have hlen0 : ((List.replicate n i32MaxN).set dst 0).length = n := by
    simp
  have hget : ∀ v, v < n → distGetD ((List.replicate n i32MaxN).set dst 0) v =
      if v = dst then 0 else i32MaxN := by
    intro v hv
    by_cases hvd : v = dst
    · subst hvd
      rw [if_pos rfl]
      exact distGetD_set_self _ v 0 (by simp; omega)
    · rw [if_neg hvd, distGetD_set_other _ dst 0 v hvd]
      unfold distGetD
      rw [List.getD_eq_getElem _ _ (by simp; omega)]
      simp
  have hgetBig : ∀ v, ¬ v < n →
      distGetD ((List.replicate n i32MaxN).set dst 0) v = i32MaxN := by
    intro v hv
    unfold distGetD
    rw [List.getD_eq_default]
    rw [hlen0]
    omega
  have hdst0 : distGetD ((List.replicate n i32MaxN).set dst 0) dst = 0 := by
    rw [hget dst hdst, if_pos rfl]
  have hundisc : undiscCount n ((List.replicate n i32MaxN).set dst 0) + 1 =
      undiscCount n (List.replicate n i32MaxN) := by
    apply undiscCount_set n (List.replicate n i32MaxN) dst 0 (by simp) hdst
    · unfold distGetD
      rw [List.getD_eq_getElem _ _ (by simp; omega)]
      simp
    · exact fun h => i32MaxN_pos0 h
  have hall : undiscCount n (List.replicate n i32MaxN) = n := by
    unfold undiscCount
    rw [List.filter_eq_self.mpr, List.length_range]
    intro v hv
    unfold distGetD
    rw [List.getD_eq_getElem _ _ (by simp [List.mem_range.mp hv])]
    simp
  refine bfsAux_final rev n dst hnrev hdst hn (n + 1)
    ((List.replicate n i32MaxN).set dst 0) 0 [dst] [] ?_ ?_
  · refine ⟨hlen0, hdst0, ?_, ?_, ?_, ?_, ?_, ?_, ?_⟩
    · intro v hv hdisc
      rw [hget v hv] at hdisc ⊢
      by_cases hvd : v = dst
      · subst hvd
        rw [if_pos rfl]
        exact ⟨RPath.zero, fun k _ => Nat.zero_le k⟩
      · rw [if_neg hvd] at hdisc
        exact absurd rfl hdisc
    · intro v hv
      rcases List.mem_cons.mp hv with rfl | hv'
      · exact ⟨hdst, hdst0⟩
      · exact absurd hv' (List.not_mem_nil v)
    · intro v hv; exact absurd hv (List.not_mem_nil v)
    · intro j hj
      have : j = 0 := by omega
      subst this
      exact ⟨dst, hdst, hdst0⟩
    · intro v hv hund k hk
      rcases Nat.eq_zero_or_pos k with rfl | hkpos
      · have := rpath_zero_inv rev dst v hk
        subst this
        rw [hdst0] at hund
        exact absurd hund i32MaxN_pos0
      · omega
    · intro v hv hdisc hq p hp
      rw [hget v hv] at hdisc
      by_cases hvd : v = dst
      · exact absurd (List.mem_append.mpr (Or.inl (hvd ▸
          List.mem_cons_self dst []))) hq
      · rw [if_neg hvd] at hdisc
        exact absurd rfl hdisc
    · intro v hv hdisc
      rw [hget v hv] at hdisc ⊢
      by_cases hvd : v = dst
      · subst hvd
        rw [if_pos rfl]
        omega
      · rw [if_neg hvd] at hdisc
        exact absurd rfl hdisc
  · simp only [List.length_append, List.length_cons, List.length_nil]
    omega

theorem mem_adj_lt (adj : List (List Nat)) (n : Nat) (hadj : NodesOk adj n)
    (u p : Nat) (h : p ∈ adj.getD u []) : p < n := by
  have hu : u < adj.length := mem_getD_lt adj u p h
  have : adj.getD u [] ∈ adj := by
    rw [List.getD_eq_getElem adj [] hu]
    exact List.getElem_mem hu
  exact hadj.2 _ this p h

theorem rpath_iff_fpath (adj rev : List (List Nat)) (n dst : Nat)
    (hadj : NodesOk adj n) (hrev : NodesOk rev n) (hok : RevOk adj rev)
    (hdst : dst < n) :
    ∀ v k, RPath rev dst v k ↔ FPath adj dst v k := by
  have hlen : adj.length = n := hadj.1
  intro v k
  constructor
  · intro h
    induction h with
    | zero => exact FPath.zero
    | succ hp he ih =>
      rename_i u p k'
      have hu : u < n := rpath_lt rev n dst hrev hdst u k' hp
      have hpn : p < n := mem_rev_lt rev n hrev u p he
      have hul : u < adj.length := by rw [hlen]; exact hu
      have hpl : p < adj.length := by rw [hlen]; exact hpn
      have hiff := hok.2 u hul p hpl
      exact FPath.succ (hiff.mp he) ih
  · intro h
    induction h with
    | zero => exact RPath.zero
    | succ he hp ih =>
      rename_i v' u k'
      have hv' : v' < adj.length := mem_getD_lt adj v' u he
      have hun : u < n := mem_adj_lt adj n hadj v' u he
      have hul : u < adj.length := by rw [hlen]; exact hun
      have hiff := hok.2 u hul v' hv'
      exact RPath.succ ih (hiff.mpr he)

set_option maxHeartbeats 1000000 in
theorem nextHopsBuilt_exact (adj rev : List (List Nat)) (n fromN dst : Nat)
    (hadj : NodesOk adj n) (hrev : NodesOk rev n) (hok : RevOk adj rev)
    (hn : n < i32MaxN) (hfd : fromN ≠ dst) (hfrom : fromN < n) (hdst : dst < n)
    (hreach : ∃ k, FPath adj dst fromN k) :
    ∃ d, IsHopDist adj dst fromN d ∧ 1 ≤ d ∧
      ∃ cands, nextHopsBuilt adj rev fromN dst = some cands ∧ cands ≠ [] ∧
        ∀ u, u ∈ cands ↔ u ∈ adj.getD fromN [] ∧ IsHopDist adj dst u (d - 1) := by
  obtain ⟨flen, f0, fsm, fbnd, fcomp⟩ := bfsDist_final rev n dst hrev hdst hn
  have hiff := rpath_iff_fpath adj rev n dst hadj hrev hok hdst
  obtain ⟨k0, hk0⟩ := hreach
  set dist := bfsDist rev n dst with hdist
  have hfdisc : distGetD dist fromN ≠ i32MaxN :=
    fcomp fromN k0 ((hiff fromN k0).mpr hk0)
  have hfs := fsm fromN hfrom hfdisc
  have hfb : distGetD dist fromN ≤ n := fbnd fromN hfrom hfdisc
  have hhd : IsHopDist adj dst fromN (distGetD dist fromN) :=
    ⟨(hiff fromN _).mp hfs.1, fun k hk => hfs.2 k ((hiff fromN k).mpr hk)⟩
  have hdf1 : 1 ≤ distGetD dist fromN := by
    rcases Nat.eq_zero_or_pos (distGetD dist fromN) with h0 | h1
    · exfalso
      have hz := hfs.1
      rw [h0] at hz
      exact hfd (rpath_zero_inv rev dst fromN hz)
    · exact h1
  have hnbr : ∀ u, u ∈ adj.getD fromN [] →
      (distGetD dist u = distGetD dist fromN - 1 ↔
        IsHopDist adj dst u (distGetD dist fromN - 1)) := by
    intro u hu
    have hun : u < n := mem_adj_lt adj n hadj fromN u hu
    constructor
    · intro hdu
      have hudisc : distGetD dist u ≠ i32MaxN := by
        rw [hdu]
        omega
      have hus := fsm u hun hudisc
      rw [hdu] at hus
      exact ⟨(hiff u _).mp hus.1, fun k hk => hus.2 k ((hiff u k).mpr hk)⟩
    · intro hhdu
      have hrp : RPath rev dst u (distGetD dist fromN - 1) :=
        (hiff u _).mpr hhdu.1
      have hudisc : distGetD dist u ≠ i32MaxN := fcomp u _ hrp
      have hus := fsm u hun hudisc
      have hle : distGetD dist u ≤ distGetD dist fromN - 1 := hus.2 _ hrp
      have hge : distGetD dist fromN - 1 ≤ distGetD dist u := by
        have hfp : FPath adj dst fromN (distGetD dist u + 1) :=
          FPath.succ hu ((hiff u _).mp hus.1)
        have := hfs.2 (distGetD dist u + 1) ((hiff fromN _).mpr hfp)
        omega
      omega
  have hcands :
      nextHopsBuilt adj rev fromN dst =
        (if ((adj.getD fromN []).filter
            (fun nh => distGetD dist nh = distGetD dist fromN - 1)) = [] then none
         else some ((adj.getD fromN []).filter
            (fun nh => distGetD dist nh = distGetD dist fromN - 1))) := by
    unfold nextHopsBuilt
    rw [if_neg hfd]
    rw [hadj.1, ← hdist]
    rw [if_neg hfdisc]
  have hwit : ∃ u ∈ adj.getD fromN [],
      distGetD dist u = distGetD dist fromN - 1 := by
    have hfp : FPath adj dst fromN (distGetD dist fromN) := hhd.1
    rcases Nat.exists_eq_add_of_le hdf1 with ⟨d2, hd2⟩
    rw [hd2, Nat.add_comm] at hfp
    cases hfp with
    | succ he hp =>
      rename_i u
      refine ⟨u, he, ?_⟩
      have hun : u < n := mem_adj_lt adj n hadj fromN u he
      have hrp : RPath rev dst u d2 := (hiff u d2).mpr hp
      have hudisc : distGetD dist u ≠ i32MaxN := fcomp u d2 hrp
      have hus := fsm u hun hudisc
      have hle : distGetD dist u ≤ d2 := hus.2 d2 hrp
      have hge : d2 ≤ distGetD dist u := by
        have hfp2 : FPath adj dst fromN (distGetD dist u + 1) :=
          FPath.succ he ((hiff u _).mp hus.1)
        have := hfs.2 (distGetD dist u + 1) ((hiff fromN _).mpr hfp2)
        omega
      omega
  obtain ⟨u0, hu0m, hu0d⟩ := hwit
  have hne : ((adj.getD fromN []).filter
      (fun nh => distGetD dist nh = distGetD dist fromN - 1)) ≠ [] := by
    intro hcon
    have hmem : u0 ∈ (adj.getD fromN []).filter
        (fun nh => distGetD dist nh = distGetD dist fromN - 1) :=
      List.mem_filter.mpr ⟨hu0m, by simp [hu0d]⟩
    rw [hcon] at hmem
    exact absurd hmem (List.not_mem_nil u0)
  refine ⟨distGetD dist fromN, hhd, hdf1, _, by rw [hcands, if_neg hne], hne, ?_⟩
  intro u
  constructor
  · intro hu
    have hm := List.mem_filter.mp hu
    have hd := of_decide_eq_true hm.2
    exact ⟨hm.1, (hnbr u hm.1).mp hd⟩
  · intro hpair
    exact List.mem_filter.mpr ⟨hpair.1,
      decide_eq_true ((hnbr u hpair.1).mpr hpair.2)⟩



theorem pickEcmpWithKey_mem (hashSalt fromN dst key : Nat) (cands : List Nat)
    (h : cands ≠ []) :
    pickEcmpWithKey hashSalt fromN dst key cands ∈ cands := by
  unfold pickEcmpWithKey
  have hlen : 0 < cands.length := List.length_pos.mpr h
  have hlt : mix64 (((key ^^^ wrapMul64 fromN 0x9E3779B97F4A7C15) ^^^ dst) ^^^
      hashSalt) % cands.length < cands.length := Nat.mod_lt _ hlen
  rw [List.getD_eq_getElem _ _ hlt]
  exact List.getElem_mem hlt

/-- C5: after the BFS build, for every pair (from, dst) with from distinct
from dst and dst reachable from from, next_hops(from, dst) is defined and
holds exactly the out-neighbors of from whose hop distance to dst is one
less than from's own hop distance; and pick_ecmp_with_key always returns
one of the candidates, so every dynamically routed packet takes a next
hop on a shortest path. -/
theorem routing_next_hops_shortest :
    (∀ (adj rev : List (List Nat)) (n fromN dst : Nat),
      NodesOk adj n → NodesOk rev n → RevOk adj rev → n < i32MaxN →
      fromN ≠ dst → fromN < n → dst < n → (∃ k, FPath adj dst fromN k) →
      ∃ d, IsHopDist adj dst fromN d ∧ 1 ≤ d ∧
        ∃ cands, nextHopsBuilt adj rev fromN dst = some cands ∧ cands ≠ [] ∧
          (∀ u, u ∈ cands ↔
            u ∈ adj.getD fromN [] ∧ IsHopDist adj dst u (d - 1)) ∧
          ∀ salt key, pickEcmpWithKey salt fromN dst key cands ∈ cands) ∧
    (∀ (salt fromN dst key : Nat) (cands : List Nat), cands ≠ [] →
      pickEcmpWithKey salt fromN dst key cands ∈ cands) := by
  constructor
  · intro adj rev n fromN dst hadj hrev hok hn hfd hfrom hdst hreach
    obtain ⟨d, hd1, hd2, cands, hc1, hc2, hc3⟩ :=
      nextHopsBuilt_exact adj rev n fromN dst hadj hrev hok hn hfd hfrom
        hdst hreach
    exact ⟨d, hd1, hd2, cands, hc1, hc2, hc3,
      fun salt key => pickEcmpWithKey_mem salt fromN dst key cands hc2⟩
  · exact fun salt fromN dst key cands h =>
      pickEcmpWithKey_mem salt fromN dst key cands h

/-- C5 witness: the chain graph at from 0, dst 2: the next hops are exactly
the neighbors one hop closer, and the ECMP pick stays in the list. -/
theorem routing_next_hops_shortest_witness :
    ∃ d, IsHopDist adjEx 2 0 d ∧ 1 ≤ d ∧
      ∃ cands, nextHopsBuilt adjEx revEx 0 2 = some cands ∧ cands ≠ [] ∧
        (∀ u, u ∈ cands ↔ u ∈ adjEx.getD 0 [] ∧ IsHopDist adjEx 2 u (d - 1)) ∧
        ∀ salt key, pickEcmpWithKey salt 0 2 key cands ∈ cands :=
  routing_next_hops_shortest.1 adjEx revEx 3 0 2
    (by unfold NodesOk; decide) (by unfold NodesOk; decide)
    (by unfold RevOk; decide) (by decide) (by decide) (by decide) (by decide)
    ⟨2, @FPath.succ adjEx 2 0 1 1 (by decide)
      (@FPath.succ adjEx 2 1 2 0 (by decide) FPath.zero)⟩

end Htsim
